import Mathlib

/- Verification of the cristaline event-sourcing engine.

   The definitions below are a shallow embedding of the TypeScript sources:
   * `EventStoreState`, `saveEvent`, `initializeStore`, `transaction`,
     `drainGo` embed `createEventStore` (the engine variant with
     transactions).
   * `dbGetState`, `takeSnapshot` embed `createEventDatabase` and
     `JsonStreamEventAdapter.archive` (snapshot/compaction).
   * `txStep` embeds the control flow of `transaction` running over the
     `NodeJsonStreamAdapter` promise lock (re-entrant acquisition).
   * `lockAcquireStart`/`lockRelease`/`lockRunMicrotask` embed `createLock`
     under the JavaScript microtask discipline.
   * The `Json` development embeds the append-friendly array format of
     `NodeJsonStreamAdapter.save`/`retrieve` (`JSON.stringify`/`JSON.parse`
     restricted to null/bool/integer/string/array/object values; floating
     point payloads are outside the model).
-/

/-! ### Engine state (closure variables of `createEventStore`) -/

/-- The mutable closure state of `createEventStore`: the cached `state`, the
cached `events` list, the store-scoped `uncommitedEvents` buffer (spelling kept
from the source) and the subscriber list.  A subscriber is modelled as an
identifier together with the fact whether its callback throws when invoked. -/
structure EventStoreState (S E : Type) where
  state : S
  events : List E
  uncommitedEvents : List E
  subscribers : List (Nat × Bool)
deriving DecidableEq, Repr

/-- `CorruptionError` from the source: it aggregates a list of errors. -/
structure CorruptionError (Err : Type) where
  errors : List Err
deriving DecidableEq, Repr

/-- `subscribers.forEach(notify => notify())`: callbacks run in insertion
order; a throwing callback makes `forEach` propagate the exception at once, so
later subscribers are not invoked.  Returns the identifiers that were invoked
and the identifier of the throwing subscriber, if any. -/
def notifyAll : List (Nat × Bool) → List Nat × Option Nat
  | [] => ([], none)
  | (i, throws) :: rest =>
    if throws then ([i], some i)
    else
      let (called, thrown) := notifyAll rest
      (i :: called, thrown)

/-- Result of one `saveEvent` call: the updated closure state, the returned
value (`none` models `null`, `some i` models the caught error thrown by
subscriber `i`), and the subscribers that were actually notified. -/
structure SaveOutcome (S E : Type) where
  store : EventStoreState S E
  returnedError : Option Nat
  notified : List Nat
deriving DecidableEq, Repr

/-- `saveEvent` with an in-memory adapter whose `save` succeeds: the event is
appended, the state is folded, then the subscribers run inside the same `try`,
so an exception thrown by a subscriber is caught and returned after the cache
was already mutated. -/
def saveEvent (replay : S → E → S) (store : EventStoreState S E) (e : E) :
    SaveOutcome S E :=
  let store' : EventStoreState S E :=
    { store with
        state := replay store.state e
        events := store.events ++ [e] }
  let (called, thrown) := notifyAll store.subscribers
  { store := store', returnedError := thrown, notified := called }

/-! ### `initialize` -/

/-- The `for (const event of receivedEvents)` loop of `initialize`: each raw
record is parsed; the first parse failure aborts the loop, returning the state
as already folded with the previously parsed events and the parse error.  On
success the accumulated parsed list and the folded state are returned. -/
def initScan (parser : U → Except Err E) (replay : S → E → S) :
    List U → S → List E → S × List E × Option Err
  | [], st, acc => (st, acc, none)
  | u :: rest, st, acc =>
    match parser u with
    | Except.error err => (st, acc, some err)
    | Except.ok ev => initScan parser replay rest (replay st ev) (acc ++ [ev])

/-- `initialize` over a persisted log `raw`: on full success the cached
`events` list is replaced by the parsed list and the state keeps the folded
value; on the first parse failure a `CorruptionError` holding that single
error is returned, `events` keeps its previous value, and `state` keeps the
mutations performed by the loop up to the failure. -/
def initializeStore (parser : U → Except Err E) (replay : S → E → S)
    (raw : List U) (store : EventStoreState S E) :
    EventStoreState S E × Option (CorruptionError Err) :=
  match initScan parser replay raw store.state [] with
  | (st, _, some err) => ({ store with state := st }, some ⟨[err]⟩)
  | (st, parsed, none) => ({ store with state := st, events := parsed }, none)

/-- Parsing an entire raw log, used to state hypotheses about fully valid
logs. -/
def parseAll (parser : U → Except Err E) : List U → Option (List E)
  | [] => some []
  | u :: rest =>
    match parser u with
    | Except.error _ => none
    | Except.ok ev => (parseAll parser rest).map (fun es => ev :: es)

/-! ### `transaction` -/

/-- The operations a transaction body may perform on the buffer through the
`commit`/`rollback` capabilities. -/
inductive TxOp (E : Type) where
  | commit (e : E)
  | rollback
deriving DecidableEq, Repr

/-- Running the body's `commit`/`rollback` calls over the store-scoped
buffer: `commit` pushes, `rollback` empties. -/
def runBody : List (TxOp E) → List E → List E
  | [], buf => buf
  | TxOp.commit e :: ops, buf => runBody ops (buf ++ [e])
  | TxOp.rollback :: ops, _ => runBody ops []

/-- The drain loop
`for (const uncommitedEvent of uncommitedEvents) { await saveEvent(...); uncommitedEvents.splice(0, 1); }`.
A JavaScript `for...of` over an array walks an index while the `splice`
removes the first element each iteration, so the length check uses the shrunk
array.  The loop runs at most `buf.length` times, which bounds the fuel.
The result of the inner `saveEvent` is ignored, as in the source. -/
def drainGo (replay : S → E → S) :
    Nat → EventStoreState S E → List E → Nat → EventStoreState S E × List E
  | 0, store, buf, _ => (store, buf)
  | fuel + 1, store, buf, i =>
    if h : i < buf.length then
      let e := buf.get ⟨i, h⟩
      let store' := (saveEvent replay store e).store
      drainGo replay fuel store' (buf.drop 1) (i + 1)
    else (store, buf)

/-- `transaction`, with the adapter lock granted (the re-entrant locking
behaviour is treated separately by the `txStep` machine): the body performs
its `commit`/`rollback` calls on the store-scoped buffer and then either
returns normally — in which case the drain loop runs — or raises, in which
case `rollback()` empties the buffer and a `TransactionError` is returned
(`true` in the second component). -/
def transaction (replay : S → E → S) (store : EventStoreState S E)
    (ops : List (TxOp E)) (bodyRaises : Bool) :
    EventStoreState S E × Bool :=
  let buf := runBody ops store.uncommitedEvents
  if bodyRaises then
    ({ store with uncommitedEvents := [] }, true)
  else
    let (store', buf') :=
      drainGo replay buf.length { store with uncommitedEvents := buf } buf 0
    ({ store' with uncommitedEvents := buf' }, false)

/-! ### Snapshot / compaction (`createEventDatabase`, `JsonStreamEventAdapter`) -/

/-- A record of the live log of `createEventDatabase`: either a domain event
or a `SNAPSHOT` event carrying an identifier, a date and a full state. -/
inductive DbRecord (S E : Type) where
  | evt (e : E)
  | snapshot (identifier : Nat) (date : Nat) (data : S)
deriving DecidableEq, Repr

/-- The two files owned by `JsonStreamEventAdapter`: the live log and the
archive log. -/
structure DbFiles (S E : Type) where
  log : List (DbRecord S E)
  archive : List (DbRecord S E)
deriving DecidableEq, Repr

/-- `getState`: retrieve the live log and fold it through the reducer from the
initial state. -/
def dbGetState (reducer : S → DbRecord S E → S) (initialState : S)
    (db : DbFiles S E) : S :=
  db.log.foldl reducer initialState

/-- `takeSnapshot` followed by `archive`: compute the current state, build a
`SNAPSHOT` record from it (the fresh identifier and the current date are taken
as parameters), move the live records to the archive and reseed the live log
with the snapshot as its sole record. -/
def takeSnapshot (reducer : S → DbRecord S E → S) (initialState : S)
    (identifier date : Nat) (db : DbFiles S E) : DbFiles S E :=
  let st := dbGetState reducer initialState db
  { log := [DbRecord.snapshot identifier date st]
    archive := db.archive ++ db.log }

/-! ### Re-entrant locking inside `transaction` (`NodeJsonStreamAdapter`)

The engine's `transaction` first awaits `adapter.requestLock()` and only
releases it in its `finally`, after the drain loop.  The drain loop awaits
`saveEvent`, which awaits `adapter.requestLock()` again.  `requestLock` of
`NodeJsonStreamAdapter` awaits the stored promise when one is present, and
that promise is resolved only by the release function the transaction holds.
The machine below walks that control flow for a body that commits one
event. -/

/-- Control locations of the single logical operation running `transaction`
with a one-event body over the adapter lock. -/
inductive TxPhase where
  | start
  | body
  | saveWaiting (p : Nat)
  | done
deriving DecidableEq, Repr

/-- Configuration: the adapter's `lock` field (`none` models `null`, `some p`
a stored promise with identifier `p`), the identifiers of resolved promises,
the next fresh promise identifier, and the control location. -/
structure TxConfig where
  lockVar : Option Nat
  resolved : List Nat
  nextP : Nat
  phase : TxPhase
deriving DecidableEq, Repr

/-- One step of the transaction control flow:
* `start`: `transaction` runs `requestLock`; the lock field is `null`, so a
  fresh promise is stored and the body runs.
* `body`: the body commits its event and returns; the drain loop calls
  `saveEvent`, whose `requestLock` finds a stored promise; if that promise is
  unresolved the operation suspends on it (`saveWaiting`).
* `saveWaiting p`: the operation can only resume once `p` is resolved, but
  the only resolver is the transaction's own `finally`, which runs after the
  drain loop — none of which has happened, so no step is possible.
-/
def txStep (c : TxConfig) : Option TxConfig :=
  match c.phase with
  | TxPhase.start =>
    match c.lockVar with
    | none =>
      some { c with lockVar := some c.nextP, nextP := c.nextP + 1,
                    phase := TxPhase.body }
    | some p =>
      if p ∈ c.resolved then
        some { c with lockVar := some c.nextP, nextP := c.nextP + 1,
                      phase := TxPhase.body }
      else none
  | TxPhase.body =>
    match c.lockVar with
    | none =>
      some { c with lockVar := some c.nextP, nextP := c.nextP + 1,
                    phase := TxPhase.done }
    | some p =>
      if p ∈ c.resolved then
        some { c with lockVar := some c.nextP, nextP := c.nextP + 1,
                      phase := TxPhase.done }
      else some { c with phase := TxPhase.saveWaiting p }
  | TxPhase.saveWaiting p =>
    if p ∈ c.resolved then
      some { c with lockVar := some c.nextP, nextP := c.nextP + 1,
                    phase := TxPhase.done }
    else none
  | TxPhase.done => none

/-- Iterate `txStep`; a configuration with no step stays put. -/
def txStepN : Nat → TxConfig → TxConfig
  | 0, c => c
  | n + 1, c =>
    match txStep c with
    | some c' => txStepN n c'
    | none => c

/-- The initial configuration: lock free, transaction about to start. -/
def txInit : TxConfig :=
  { lockVar := none, resolved := [], nextP := 0, phase := TxPhase.start }

/-! ### The promise lock (`createLock`) under several waiters -/

/-- Where each of the three tasks of the scenario stands. -/
inductive LockPhase where
  | notStarted
  | waitingOn (p : Nat)
  | holding (p : Nat)
  | released
deriving DecidableEq, Repr

/-- The lock module state plus the JavaScript scheduling state: the `lock`
variable, resolved promise identifiers, the waiters registered on each
promise in registration order, the microtask queue of resumed tasks, the next
fresh promise identifier and the per-task phases (three tasks). -/
structure LockSys where
  lockVar : Option Nat
  resolved : List Nat
  waiters : List (Nat × Nat)
  microtasks : List Nat
  nextP : Nat
  phases : List LockPhase
deriving DecidableEq, Repr

/-- The tail of `acquireLock` after the `await` (or when `lock` was `null`):
store a fresh promise in `lock` and return its resolver to the caller, who now
holds the lock. -/
def lockAcquireFinish (t : Nat) (s : LockSys) : LockSys :=
  { s with
      lockVar := some s.nextP
      nextP := s.nextP + 1
      phases := s.phases.set t (LockPhase.holding s.nextP) }

/-- Task `t` calls `acquireLock`: if `lock` holds an unresolved promise the
task registers itself as a waiter on it (the single `await lock`); if `lock`
holds a resolved promise the task is scheduled as a microtask; if `lock` is
`null` the tail runs synchronously. -/
def lockAcquireStart (t : Nat) (s : LockSys) : LockSys :=
  match s.lockVar with
  | none => lockAcquireFinish t s
  | some p =>
    if p ∈ s.resolved then
      { s with microtasks := s.microtasks ++ [t] }
    else
      { s with
          waiters := s.waiters ++ [(p, t)]
          phases := s.phases.set t (LockPhase.waitingOn p) }

/-- Task `t` calls the release function for promise `p` (`createLock`):
`release()` resolves `p`, which moves every waiter registered on `p` to the
microtask queue in registration order, and the `lock` variable is set back to
`null`. -/
def lockRelease (t : Nat) (p : Nat) (s : LockSys) : LockSys :=
  { s with
      lockVar := none
      resolved := s.resolved ++ [p]
      waiters := s.waiters.filter (fun w => w.1 ≠ p)
      microtasks := s.microtasks ++ ((s.waiters.filter (fun w => w.1 = p)).map (fun w => w.2))
      phases := s.phases.set t LockPhase.released }

/-- Run the first queued microtask: the resumed task executes the tail of
`acquireLock` after its `await`, unconditionally taking the lock. -/
def lockRunMicrotask (s : LockSys) : LockSys :=
  match s.microtasks with
  | [] => s
  | t :: rest => lockAcquireFinish t { s with microtasks := rest }

/-- The initial system: no promise, three tasks not yet started. -/
def lockInit : LockSys :=
  { lockVar := none, resolved := [], waiters := [], microtasks := [],
    nextP := 0,
    phases := [LockPhase.notStarted, LockPhase.notStarted, LockPhase.notStarted] }

/-- The contended scenario: task 0 acquires, tasks 1 and 2 request the lock
while task 0 holds it, task 0 releases (resolving promise 0), and the two
scheduled microtasks run in FIFO order. -/
def lockScenario : LockSys :=
  lockRunMicrotask (lockRunMicrotask
    (lockRelease 0 0
      (lockAcquireStart 2 (lockAcquireStart 1 (lockAcquireStart 0 lockInit)))))

/-- How many tasks are in a `holding` phase. -/
def holdingCount (s : LockSys) : Nat :=
  (s.phases.filter (fun ph =>
    match ph with
    | LockPhase.holding _ => true
    | _ => false)).length

/-! ### JSON values (`JSON.stringify` / `JSON.parse`)

`NodeJsonStreamAdapter` serializes events with `JSON.stringify` and reads the
log back with `JSON.parse`.  The model covers null, booleans, integers,
strings, arrays and objects (floating point numbers are outside the model).
A mutual inductive is used so that all functions below are structurally
recursive and evaluate inside the kernel. -/

mutual
inductive Json where
  | null
  | bool (b : Bool)
  | num (n : Int)
  | str (s : List Char)
  | arr (xs : JsonList)
  | obj (kvs : JsonFields)

inductive JsonList where
  | nil
  | cons (hd : Json) (tl : JsonList)

inductive JsonFields where
  | nil
  | cons (key : List Char) (val : Json) (tl : JsonFields)
end

/-- The double quote character. -/
abbrev quoteChar : Char := Char.ofNat 34

/-- The backslash character. -/
abbrev backslashChar : Char := Char.ofNat 92

/-- The opening brace character. -/
abbrev lbraceChar : Char := Char.ofNat 123

/-- The closing brace character. -/
abbrev rbraceChar : Char := Char.ofNat 125

/-- `JSON.parse` token whitespace: exactly space, tab, line feed and carriage
return (the JSON grammar's `ws` production).  This is strictly smaller than
the `\s` class of JavaScript regular expressions, modelled separately as
`isRegexWsChar`. -/
def isWsChar (c : Char) : Bool := c = ' ' || c = '\n' || c = '\t' || c = '\r'

/-- The `\s` class of JavaScript regular expressions: ECMAScript WhiteSpace
plus LineTerminator, i.e. tab, line feed, vertical tab, form feed, carriage
return, space, U+00A0, U+1680, U+2000–U+200A, U+2028, U+2029, U+202F,
U+205F, U+3000 and U+FEFF.  The members above U+001F are left unescaped by
`JSON.stringify` inside string literals, so the dangling-comma regular
expression can see them in serialized event data. -/
def isRegexWsChar (c : Char) : Bool :=
  c.toNat = 9 || c.toNat = 10 || c.toNat = 11 || c.toNat = 12 || c.toNat = 13 ||
  c.toNat = 32 || c.toNat = 160 || c.toNat = 5760 ||
  (8192 ≤ c.toNat && c.toNat ≤ 8202) ||
  c.toNat = 8232 || c.toNat = 8233 || c.toNat = 8239 || c.toNat = 8287 ||
  c.toNat = 12288 || c.toNat = 65279

/-- The decimal digit character for `d < 10`. -/
def digitChar (d : Nat) : Char := Char.ofNat (48 + d)

/-- The lowercase hexadecimal digit character for `d < 16`. -/
def hexDigitChar (d : Nat) : Char := if d < 10 then digitChar d else Char.ofNat (87 + d)

/-- How `JSON.stringify` escapes one character inside a string literal. -/
def escapeChar (c : Char) : List Char :=
  if c = quoteChar then [backslashChar, quoteChar]
  else if c = backslashChar then [backslashChar, backslashChar]
  else if c = '\n' then [backslashChar, 'n']
  else if c = '\r' then [backslashChar, 'r']
  else if c = '\t' then [backslashChar, 't']
  else if c = Char.ofNat 8 then [backslashChar, 'b']
  else if c = Char.ofNat 12 then [backslashChar, 'f']
  else if c.toNat < 32 then
    [backslashChar, 'u', '0', '0', hexDigitChar (c.toNat / 16), hexDigitChar (c.toNat % 16)]
  else [c]

/-- Escaping a whole string body. -/
def escapeStr (s : List Char) : List Char := s.foldr (fun c acc => escapeChar c ++ acc) []

/-- Decimal digits of a natural number, most significant first. -/
def natChars (m : Nat) : List Char :=
  if m = 0 then [digitChar 0] else (Nat.digits 10 m).reverse.map digitChar

/-- `JSON.stringify` for an integer. -/
def intChars (n : Int) : List Char :=
  if n < 0 then '-' :: natChars n.natAbs else natChars n.toNat

/-- A serialized object key followed by the colon. -/
def stringifyKey (k : List Char) : List Char :=
  quoteChar :: escapeStr k ++ [quoteChar, ':']

mutual
/-- `JSON.stringify` (no spacing argument: it emits no whitespace). -/
def stringify : Json → List Char
  | Json.null => ['n', 'u', 'l', 'l']
  | Json.bool true => ['t', 'r', 'u', 'e']
  | Json.bool false => ['f', 'a', 'l', 's', 'e']
  | Json.num n => intChars n
  | Json.str s => quoteChar :: escapeStr s ++ [quoteChar]
  | Json.arr JsonList.nil => ['[', ']']
  | Json.arr (JsonList.cons x xs) => '[' :: stringify x ++ stringifyItems xs ++ [']']
  | Json.obj JsonFields.nil => [lbraceChar, rbraceChar]
  | Json.obj (JsonFields.cons k v kvs) =>
    lbraceChar :: stringifyKey k ++ stringify v ++ stringifyMembers kvs ++ [rbraceChar]

/-- The remaining elements of an array, each preceded by a comma. -/
def stringifyItems : JsonList → List Char
  | JsonList.nil => []
  | JsonList.cons x xs => ',' :: stringify x ++ stringifyItems xs

/-- The remaining members of an object, each preceded by a comma. -/
def stringifyMembers : JsonFields → List Char
  | JsonFields.nil => []
  | JsonFields.cons k v kvs => ',' :: stringifyKey k ++ stringify v ++ stringifyMembers kvs
end

/-- Skipping whitespace between tokens. -/
def skipWs (cs : List Char) : List Char := cs.dropWhile isWsChar

/-- Value of a hexadecimal digit character. -/
def hexVal (c : Char) : Option Nat :=
  if 48 ≤ c.toNat ∧ c.toNat ≤ 57 then some (c.toNat - 48)
  else if 97 ≤ c.toNat ∧ c.toNat ≤ 102 then some (c.toNat - 87)
  else if 65 ≤ c.toNat ∧ c.toNat ≤ 70 then some (c.toNat - 55)
  else none

/-- Value of a list of decimal digit characters, most significant first. -/
def digitVal (c : Char) : Nat := c.toNat - 48

/-- Folding decimal digit characters into a natural number. -/
def charsToNat (ds : List Char) : Nat := ds.foldl (fun a c => 10 * a + digitVal c) 0

/-- The inverse of a simple escape character. -/
def unescapeChar (c : Char) : Option Char :=
  if c = quoteChar then some quoteChar
  else if c = backslashChar then some backslashChar
  else if c = '/' then some '/'
  else if c = 'n' then some '\n'
  else if c = 'r' then some '\r'
  else if c = 't' then some '\t'
  else if c = 'b' then some (Char.ofNat 8)
  else if c = 'f' then some (Char.ofNat 12)
  else none

/-- Scanning a string literal body after the opening quote: plain characters
until the closing quote, backslash escapes (including `\uXXXX`), and a
rejection of raw control characters, as in `JSON.parse`. -/
def parseStrGo : List Char → Option (List Char × List Char)
  | [] => none
  | c :: rest =>
    if c = quoteChar then some ([], rest)
    else if c = backslashChar then
      match rest with
      | [] => none
      | e :: rest2 =>
        if e = 'u' then
          match rest2 with
          | h1 :: h2 :: h3 :: h4 :: rest3 =>
            match hexVal h1, hexVal h2, hexVal h3, hexVal h4 with
            | some a, some b, some c3, some d =>
              match parseStrGo rest3 with
              | some (s, r) =>
                some (Char.ofNat (((a * 16 + b) * 16 + c3) * 16 + d) :: s, r)
              | none => none
            | _, _, _, _ => none
          | _ => none
        else
          match unescapeChar e with
          | some u =>
            match parseStrGo rest2 with
            | some (s, r) => some (u :: s, r)
            | none => none
          | none => none
    else if c.toNat < 32 then none
    else
      match parseStrGo rest with
      | some (s, r) => some (c :: s, r)
      | none => none

/-- Scanning a number token: an optional minus sign followed by a nonempty
run of decimal digits (fractions and exponents are outside the model). -/
def parseNumTok (cs : List Char) : Option (Json × List Char) :=
  match cs with
  | [] => none
  | c :: rest =>
    if c = '-' then
      let ds := rest.takeWhile Char.isDigit
      if ds.isEmpty then none
      else some (Json.num (-(charsToNat ds : Int)), rest.dropWhile Char.isDigit)
    else
      let ds := cs.takeWhile Char.isDigit
      if ds.isEmpty then none
      else some (Json.num ((charsToNat ds : Int)), cs.dropWhile Char.isDigit)

mutual
/-- Recursive-descent `JSON.parse` for one value, with a fuel bound on
nesting; returns the value and the unconsumed suffix. -/
def parseVal : Nat → List Char → Option (Json × List Char)
  | 0, _ => none
  | f + 1, cs =>
    match skipWs cs with
    | [] => none
    | c :: rest =>
      if c = 'n' then
        match rest with
        | 'u' :: 'l' :: 'l' :: r => some (Json.null, r)
        | _ => none
      else if c = 't' then
        match rest with
        | 'r' :: 'u' :: 'e' :: r => some (Json.bool true, r)
        | _ => none
      else if c = 'f' then
        match rest with
        | 'a' :: 'l' :: 's' :: 'e' :: r => some (Json.bool false, r)
        | _ => none
      else if c = quoteChar then
        match parseStrGo rest with
        | some (s, r) => some (Json.str s, r)
        | none => none
      else if c = '[' then
        match skipWs rest with
        | [] => none
        | c2 :: r2 =>
          if c2 = ']' then some (Json.arr JsonList.nil, r2)
          else
            match parseItems f (c2 :: r2) with
            | some (vs, r) => some (Json.arr vs, r)
            | none => none
      else if c = lbraceChar then
        match skipWs rest with
        | [] => none
        | c2 :: r2 =>
          if c2 = rbraceChar then some (Json.obj JsonFields.nil, r2)
          else
            match parseFields f (c2 :: r2) with
            | some (kvs, r) => some (Json.obj kvs, r)
            | none => none
      else if c = '-' || c.isDigit then parseNumTok (c :: rest)
      else none

/-- The elements of a nonempty array: a value, then either a comma and more
elements or the closing bracket.  A comma not followed by a value fails, as
in `JSON.parse` (no trailing commas). -/
def parseItems : Nat → List Char → Option (JsonList × List Char)
  | 0, _ => none
  | f + 1, cs =>
    match parseVal f cs with
    | none => none
    | some (v, rest) =>
      match skipWs rest with
      | [] => none
      | c :: r =>
        if c = ',' then
          match parseItems f r with
          | some (vs, rr) => some (JsonList.cons v vs, rr)
          | none => none
        else if c = ']' then some (JsonList.cons v JsonList.nil, r)
        else none

/-- The members of a nonempty object: a quoted key, a colon, a value, then
either a comma and more members or the closing brace. -/
def parseFields : Nat → List Char → Option (JsonFields × List Char)
  | 0, _ => none
  | f + 1, cs =>
    match skipWs cs with
    | [] => none
    | c :: rest =>
      if c = quoteChar then
        match parseStrGo rest with
        | none => none
        | some (k, r1) =>
          match skipWs r1 with
          | ':' :: r2 =>
            match parseVal f r2 with
            | none => none
            | some (v, r3) =>
              match skipWs r3 with
              | [] => none
              | c4 :: r4 =>
                if c4 = ',' then
                  match parseFields f r4 with
                  | some (kvs, rr) => some (JsonFields.cons k v kvs, rr)
                  | none => none
                else if c4 = rbraceChar then
                  some (JsonFields.cons k v JsonFields.nil, r4)
                else none
          | _ => none
      else none
end

/-- `JSON.parse`: one value, with nothing but whitespace after it.  The fuel
`length + 1` dominates the nesting depth of any parse that succeeds, because
every nesting step first consumes at least one character. -/
def parseJson (cs : List Char) : Option Json :=
  match parseVal (cs.length + 1) cs with
  | some (v, rest) => if (skipWs rest).isEmpty then some v else none
  | none => none

/-! ### The append-friendly array format (`NodeJsonStreamAdapter`) -/

/-- The content a missing log file is created with: `[` and a newline. -/
def arrayFileInit : List Char := ['[', '\n']

/-- `save`: append the serialized event and `,\n`. -/
def appendEventFile (file : List Char) (v : Json) : List Char :=
  file ++ stringify v ++ [',', '\n']

/-- The file produced by initializing the store and appending the given
events in order. -/
def fileOf (vs : List Json) : List Char := vs.foldl appendEventFile arrayFileInit

/-- Skipping characters matched by the regular-expression class `\s`. -/
def skipRegexWs (cs : List Char) : List Char := cs.dropWhile isRegexWsChar

/-- The lookahead of the dangling-comma regular expression `/,(?=\s*])/`:
`\s`-whitespace followed by a closing bracket. -/
def wsThenBracket (cs : List Char) : Bool :=
  match skipRegexWs cs with
  | c :: _ => c = ']'
  | [] => false

/-- `text.replace(/,(?=\s*])/m, "")`: remove the first comma that is
followed by optional whitespace and a closing bracket. -/
def stripDangling : List Char → List Char
  | [] => []
  | c :: rest =>
    if c = ',' then
      if wsThenBracket rest then rest else c :: stripDangling rest
    else c :: stripDangling rest

/-- The elements of a parsed array as an ordinary list. -/
def JsonList.toList : JsonList → List Json
  | JsonList.nil => []
  | JsonList.cons v vs => v :: JsonList.toList vs

/-- `retrieve`: append `]`, strip the dangling comma, parse, and require an
array (`throw new Error("Corupted database")` otherwise, modelled as
`none`). -/
def retrieveModel (file : List Char) : Option (List Json) :=
  match parseJson (stripDangling (file ++ [']'])) with
  | some (Json.arr vs) => some vs.toList
  | _ => none

/-- Whether a comma followed by optional whitespace and a closing bracket
occurs somewhere in the text — the pattern the dangling-comma regular
expression can match too early. -/
def containsPat : List Char → Bool
  | [] => false
  | c :: rest =>
    if c = ',' then
      if wsThenBracket rest then true else containsPat rest
    else containsPat rest

mutual
/-- Fuel sufficient for `parseVal` on the serialization of a value. -/
def pfuel : Json → Nat
  | Json.null => 1
  | Json.bool _ => 1
  | Json.num _ => 1
  | Json.str _ => 1
  | Json.arr xs => 1 + pfuelItems xs
  | Json.obj kvs => 1 + pfuelFields kvs

/-- Fuel sufficient for `parseItems` on serialized array elements. -/
def pfuelItems : JsonList → Nat
  | JsonList.nil => 1
  | JsonList.cons v vs => 1 + max (pfuel v) (pfuelItems vs)

/-- Fuel sufficient for `parseFields` on serialized object members. -/
def pfuelFields : JsonFields → Nat
  | JsonFields.nil => 1
  | JsonFields.cons _ v kvs => 1 + max (pfuel v) (pfuelFields kvs)
end

/-- The texts accepted by `parseItems` as the elements of a nonempty array:
serialized values separated by commas with optional whitespace, ended by the
closing bracket.  The whitespace slots are used by the top-level file format,
which separates elements with `,\n`. -/
inductive ItemsShape : JsonList → List Char → Prop where
  | last (v : Json) (w1 w2 : List Char) :
      (∀ c ∈ w1, isWsChar c = true) → (∀ c ∈ w2, isWsChar c = true) →
      ItemsShape (JsonList.cons v JsonList.nil) (w1 ++ stringify v ++ w2 ++ [']'])
  | cons (v : Json) (vs : JsonList) (w1 w2 t : List Char) :
      (∀ c ∈ w1, isWsChar c = true) → (∀ c ∈ w2, isWsChar c = true) →
      ItemsShape vs t →
      ItemsShape (JsonList.cons v vs) (w1 ++ stringify v ++ w2 ++ [','] ++ t)

/-- The texts accepted by `parseFields` as the members of a nonempty object,
as emitted by `stringify` (no whitespace). -/
inductive FieldsShape : JsonFields → List Char → Prop where
  | last (k : List Char) (v : Json) :
      FieldsShape (JsonFields.cons k v JsonFields.nil)
        (stringifyKey k ++ stringify v ++ [rbraceChar])
  | cons (k : List Char) (v : Json) (kvs : JsonFields) (t : List Char) :
      FieldsShape kvs t →
      FieldsShape (JsonFields.cons k v kvs)
        (stringifyKey k ++ stringify v ++ [','] ++ t)

/-- The first character, if any, is not a decimal digit — the condition under
which a serialized number followed by this text parses back exactly. -/
def headNotDigit : List Char → Prop
  | [] => True
  | c :: _ => c.isDigit = false

/-- The text the append loop adds after the initial `[`-plus-newline: each
event's serialization followed by `,\n`. -/
def segsText (vs : List Json) : List Char :=
  (vs.map (fun v => stringify v ++ [',', '\n'])).flatten

/-- The same text after appending `]` and removing the dangling comma:
the serializations separated by `,\n`, ended by a newline and `]`. -/
def tailText : List Json → List Char
  | [] => [']']
  | [v] => stringify v ++ ['\n', ']']
  | v :: vs => stringify v ++ [',', '\n'] ++ tailText vs

/-- Building the parser's array representation from an ordinary list. -/
def JsonList.ofList : List Json → JsonList
  | [] => JsonList.nil
  | v :: vs => JsonList.cons v (JsonList.ofList vs)

/-! ### Helper lemmas about `initialize` -/

/-- On a fully parseable log, the scan folds the parsed events onto the
incoming state and accumulates them in order, reporting no error. -/
theorem initScan_all_ok {U Err E S : Type} (parser : U → Except Err E)
    (replay : S → E → S) :
    ∀ (raw : List U) (P : List E), parseAll parser raw = some P →
      ∀ (st : S) (acc : List E),
        initScan parser replay raw st acc = (List.foldl replay st P, acc ++ P, none) := by
  intro raw
  induction raw with
  | nil =>
    intro P h st acc
    simp only [parseAll, Option.some.injEq] at h
    subst h
    simp [initScan]
  | cons u rest ih =>
    intro P h st acc
    simp only [parseAll] at h
    cases hp : parser u with
    | error e => rw [hp] at h; exact absurd h (by simp)
    | ok ev =>
      rw [hp] at h
      rcases hrest : parseAll parser rest with _ | P'
      · rw [hrest] at h; exact absurd h (by simp)
      · rw [hrest] at h
        simp only [Option.map_some', Option.some.injEq] at h
        subst h
        simp only [initScan, hp]
        rw [ih P' hrest (replay st ev) (acc ++ [ev])]
        simp [List.foldl]

/-- On a log whose records start with a parseable prefix followed by a
malformed record, the scan stops at that record: the state has been folded
with the prefix, the accumulator holds the prefix, and the single error of
the first malformed record is reported. -/
theorem initScan_first_bad {U Err E S : Type} (parser : U → Except Err E)
    (replay : S → E → S) (bad : U) (err : Err) (rest : List U)
    (hBad : parser bad = Except.error err) :
    ∀ (good : List U) (P : List E), parseAll parser good = some P →
      ∀ (st : S) (acc : List E),
        initScan parser replay (good ++ bad :: rest) st acc =
          (List.foldl replay st P, acc ++ P, some err) := by
  intro good
  induction good with
  | nil =>
    intro P h st acc
    simp only [parseAll, Option.some.injEq] at h
    subst h
    simp [initScan, hBad]
  | cons u tl ih =>
    intro P h st acc
    simp only [parseAll] at h
    cases hp : parser u with
    | error e => rw [hp] at h; exact absurd h (by simp)
    | ok ev =>
      rw [hp] at h
      rcases hrest : parseAll parser tl with _ | P'
      · rw [hrest] at h; exact absurd h (by simp)
      · rw [hrest] at h
        simp only [Option.map_some', Option.some.injEq] at h
        subst h
        simp only [List.cons_append, initScan, hp, List.append_eq]
        rw [ih P' hrest (replay st ev) (acc ++ [ev])]
        simp [List.foldl]

/-! ### Helper lemmas about notification and the deadlock machine -/

/-- `forEach` over a prefix of non-throwing subscribers followed by a
throwing one: exactly the prefix and the throwing subscriber run, and the
exception of the throwing subscriber is propagated. -/
theorem notifyAll_first_throw (i : Nat) (post : List (Nat × Bool)) :
    ∀ pre : List (Nat × Bool), (∀ x ∈ pre, x.2 = false) →
      notifyAll (pre ++ (i, true) :: post) = (pre.map Prod.fst ++ [i], some i) := by
  intro pre
  induction pre with
  | nil => intro _; simp [notifyAll]
  | cons x tl ih =>
    intro h
    have hx : x.2 = false := h x (by simp)
    have htl : ∀ y ∈ tl, y.2 = false := fun y hy => h y (by simp [hy])
    rcases x with ⟨j, b⟩
    simp only at hx
    subst hx
    simp [notifyAll, ih htl]

/-- A configuration without a step is a fixed point of the iteration. -/
theorem txStepN_stuck (c : TxConfig) (h : txStep c = none) :
    ∀ n, txStepN n c = c := by
  intro n
  induction n with
  | zero => rfl
  | succ n ih => simp only [txStepN, h]

/-- On a fully parseable log, `initialize()` succeeds, replaces the cached
events by the parsed list, and folds the parsed events onto the *current*
cached state (there is no reset to the zero-state). -/
theorem initializeStore_all_ok {U Err E S : Type} (parser : U → Except Err E)
    (replay : S → E → S) (raw : List U) (P : List E)
    (store : EventStoreState S E) (hAll : parseAll parser raw = some P) :
    initializeStore parser replay raw store =
      ({ store with state := List.foldl replay store.state P, events := P },
        none) := by
  unfold initializeStore
  rw [initScan_all_ok parser replay raw P hAll store.state []]
  rfl

/-! ### Claim theorems -/

/-- C1 (counterexample): the claim says that on a persisted log of six
records with malformed records at positions 2 and 5, `initialize()` returns a
`CorruptionError` whose error list has exactly 2 entries.  On that very log
the engine returns a `CorruptionError` with a single entry: the scan is
fail-fast, not a full scan. -/
theorem c1_counterexample :
    ¬ ((initializeStore
          (fun u : Option Nat => match u with
            | some n => Except.ok n
            | none => Except.error 0)
          (fun (s e : Nat) => s + e)
          [some 1, some 2, none, some 4, some 5, none]
          ⟨0, [], [], []⟩).2.map (fun c => c.errors.length) = some 2) := by
  decide

/-- C1 (amended): when the persisted log contains a malformed record,
`initialize()` stops at the first one and returns a `CorruptionError` whose
error list contains exactly one entry, the failure of that first malformed
record. -/
theorem c1_fail_fast {U Err E S : Type} (parser : U → Except Err E)
    (replay : S → E → S) (store : EventStoreState S E)
    (good : List U) (bad : U) (rest : List U) (P : List E) (err : Err)
    (hGood : parseAll parser good = some P)
    (hBad : parser bad = Except.error err) :
    (initializeStore parser replay (good ++ bad :: rest) store).2 =
      some ⟨[err]⟩ := by
  unfold initializeStore
  rw [initScan_first_bad parser replay bad err rest hBad good P hGood store.state []]

/-- C1 witness: the amended statement evaluated on the six-record log with
malformed records at positions 2 and 5. -/
theorem c1_fail_fast_witness :
    (initializeStore
        (fun u : Option Nat => match u with
          | some n => Except.ok n
          | none => Except.error 0)
        (fun (s e : Nat) => s + e)
        ([some 1, some 2] ++ none :: [some 4, some 5, none])
        ⟨0, [], [], []⟩).2 = some ⟨[0]⟩ :=
  c1_fail_fast _ _ ⟨0, [], [], []⟩ [some 1, some 2] none [some 4, some 5, none]
    [1, 2] 0 rfl rfl

/-- C2: the claim says a transaction whose body commits `A` then `B` and
returns normally persists and folds both events in order.  Evaluating the
engine on a body that commits `1` then `2` over an empty store: the drain
loop iterates the buffer while removing its head, so only `1` is persisted
and folded, `2` is skipped and stays in the buffer, and the call still
reports success (`false`, no `TransactionError`). -/
theorem c2_transaction_drops_second_event :
    transaction (fun (s e : Nat) => s + e) ⟨0, [], [], []⟩
        [TxOp.commit 1, TxOp.commit 2] false =
      (⟨1, [1], [2], []⟩, false) := by
  decide

/-- C3 (counterexample): the claim says a failed `initialize()` leaves the
cached state identical.  On the log `[ok 5, bad]` over a store whose cached
state is `0`, the failed call leaves the cached state at `5`: the events
parsed before the failure were already folded in. -/
theorem c3_counterexample :
    ¬ ((initializeStore
          (fun u : Option Nat => match u with
            | some n => Except.ok n
            | none => Except.error 0)
          (fun (s e : Nat) => s + e)
          [some 5, none] ⟨0, [], [], []⟩).1.state =
        (⟨0, [], [], []⟩ : EventStoreState Nat Nat).state) := by
  decide

/-- C3 (amended): on any parse failure `initialize()` leaves the cached
event list untouched, but the cached state has already been folded with every
event parsed before the first malformed record. -/
theorem c3_partial_state_mutation {U Err E S : Type} (parser : U → Except Err E)
    (replay : S → E → S) (store : EventStoreState S E)
    (good : List U) (bad : U) (rest : List U) (P : List E) (err : Err)
    (hGood : parseAll parser good = some P)
    (hBad : parser bad = Except.error err) :
    (initializeStore parser replay (good ++ bad :: rest) store).1.events =
        store.events ∧
    (initializeStore parser replay (good ++ bad :: rest) store).1.state =
        List.foldl replay store.state P := by
  unfold initializeStore
  rw [initScan_first_bad parser replay bad err rest hBad good P hGood store.state []]
  exact ⟨rfl, rfl⟩

/-- C3 witness: the amended statement evaluated on the log `[ok 5, bad]`. -/
theorem c3_partial_state_mutation_witness :
    (initializeStore
        (fun u : Option Nat => match u with
          | some n => Except.ok n
          | none => Except.error 0)
        (fun (s e : Nat) => s + e)
        ([some 5] ++ none :: []) ⟨0, [7], [], []⟩).1.events = [7] ∧
    (initializeStore
        (fun u : Option Nat => match u with
          | some n => Except.ok n
          | none => Except.error 0)
        (fun (s e : Nat) => s + e)
        ([some 5] ++ none :: []) ⟨0, [7], [], []⟩).1.state =
      List.foldl (fun (s e : Nat) => s + e) 0 [5] :=
  c3_partial_state_mutation _ _ ⟨0, [7], [], []⟩ [some 5] none [] [5] 0 rfl rfl

/-- C4: the claim says `transaction()` never deadlocks on re-entrant use and
always terminates.  Running the control flow of a transaction whose body
commits one event over the adapter promise lock: after two steps the
operation is suspended inside the internal `saveEvent`, waiting on the very
promise the transaction itself holds; no further step exists and the `done`
phase is never reached, however long the machine runs. -/
theorem c4_transaction_self_deadlock :
    (∀ n : Nat, (txStepN n txInit).phase ≠ TxPhase.done) ∧
    (txStepN 2 txInit).phase = TxPhase.saveWaiting 0 ∧
    txStep (txStepN 2 txInit) = none := by
  refine ⟨?_, by decide, by decide⟩
  intro n
  match n with
  | 0 => decide
  | 1 => decide
  | n + 2 =>
    have h : txStepN (n + 2) txInit = txStepN n (txStepN 2 txInit) := rfl
    rw [h, txStepN_stuck (txStepN 2 txInit) (by decide) n]
    decide

/-- C5 (counterexample): the claim says a second `initialize()` over the same
log leaves `getState()` equal to the result of the first call.  Over the
one-event log `[ok 1]` with an additive reducer, the first call yields state
`1` and the second call yields state `2`: the replay folds onto the current
state, not from the zero-state. -/
theorem c5_counterexample :
    ¬ ((initializeStore
          (fun u : Option Nat => match u with
            | some n => Except.ok n
            | none => Except.error 0)
          (fun (s e : Nat) => s + e) [some 1]
          ((initializeStore
            (fun u : Option Nat => match u with
              | some n => Except.ok n
              | none => Except.error 0)
            (fun (s e : Nat) => s + e) [some 1] ⟨0, [], [], []⟩).1)).1.state =
        (initializeStore
          (fun u : Option Nat => match u with
            | some n => Except.ok n
            | none => Except.error 0)
          (fun (s e : Nat) => s + e) [some 1] ⟨0, [], [], []⟩).1.state) := by
  decide

/-- C5 (amended): over a fully parseable log, each `initialize()` call is
deterministic and folds the parsed events onto the *current* cached state:
the first call from a store with state `z` yields `fold z P`, and a second
call over the same log yields `fold (fold z P) P` — so repeated
initialization is not idempotent unless the fold is. -/
theorem c5_initialize_refolds {U Err E S : Type} (parser : U → Except Err E)
    (replay : S → E → S) (raw : List U) (P : List E)
    (store : EventStoreState S E) (hAll : parseAll parser raw = some P) :
    (initializeStore parser replay raw store).1.state =
        List.foldl replay store.state P ∧
    (initializeStore parser replay raw
        ((initializeStore parser replay raw store).1)).1.state =
        List.foldl replay (List.foldl replay store.state P) P := by
  rw [initializeStore_all_ok parser replay raw P store hAll]
  rw [initializeStore_all_ok parser replay raw P _ hAll]
  exact ⟨rfl, rfl⟩

/-- C5 witness: the amended statement evaluated on the log `[ok 1]`. -/
theorem c5_initialize_refolds_witness :
    (initializeStore
        (fun u : Option Nat => match u with
          | some n => Except.ok n
          | none => Except.error 0)
        (fun (s e : Nat) => s + e) [some 1] ⟨0, [], [], []⟩).1.state =
      List.foldl (fun (s e : Nat) => s + e) 0 [1] ∧
    (initializeStore
        (fun u : Option Nat => match u with
          | some n => Except.ok n
          | none => Except.error 0)
        (fun (s e : Nat) => s + e) [some 1]
        ((initializeStore
          (fun u : Option Nat => match u with
            | some n => Except.ok n
            | none => Except.error 0)
          (fun (s e : Nat) => s + e) [some 1] ⟨0, [], [], []⟩).1)).1.state =
      List.foldl (fun (s e : Nat) => s + e)
        (List.foldl (fun (s e : Nat) => s + e) 0 [1]) [1] :=
  c5_initialize_refolds _ _ [some 1] [1] ⟨0, [], [], []⟩ rfl

/-- C6 (counterexample): the claim says that when a subscribed listener
throws, every remaining listener is still notified and `saveEvent` still
reports success.  With subscribers `0` (throwing) and `1`, listener `1` is
not notified and `saveEvent` returns the caught error instead of `null`. -/
theorem c6_counterexample :
    ¬ ((saveEvent (fun (s e : Nat) => s + e)
          ⟨0, [], [], [(0, true), (1, false)]⟩ 7).returnedError = none ∧
       1 ∈ (saveEvent (fun (s e : Nat) => s + e)
          ⟨0, [], [], [(0, true), (1, false)]⟩ 7).notified) := by
  decide

/-- C6 (amended): if a subscribed listener throws during the notification
that follows a successful `saveEvent`, notification stops at that listener
(subscribers after it are not invoked), `saveEvent` returns the caught error
instead of success, the engine does not crash, and the just-completed write
remains applied: the cache holds the new event and the folded state. -/
theorem c6_listener_fault_stops_notification {S E : Type} (replay : S → E → S)
    (store : EventStoreState S E) (e : E) (pre post : List (Nat × Bool)) (i : Nat)
    (hSubs : store.subscribers = pre ++ (i, true) :: post)
    (hPre : ∀ x ∈ pre, x.2 = false) :
    (saveEvent replay store e).notified = pre.map Prod.fst ++ [i] ∧
    (saveEvent replay store e).returnedError = some i ∧
    (saveEvent replay store e).store.state = replay store.state e ∧
    (saveEvent replay store e).store.events = store.events ++ [e] := by
  unfold saveEvent
  rw [hSubs, notifyAll_first_throw i post pre hPre]
  exact ⟨rfl, rfl, rfl, rfl⟩

/-- C6 witness: the amended statement with a non-throwing listener before and
after the throwing one. -/
theorem c6_listener_fault_stops_notification_witness :
    (saveEvent (fun (s e : Nat) => s + e)
        ⟨0, [], [], [(3, false), (0, true), (4, false)]⟩ 7).notified =
      List.map Prod.fst [((3 : Nat), false)] ++ [0] ∧
    (saveEvent (fun (s e : Nat) => s + e)
        ⟨0, [], [], [(3, false), (0, true), (4, false)]⟩ 7).returnedError =
      some 0 ∧
    (saveEvent (fun (s e : Nat) => s + e)
        ⟨0, [], [], [(3, false), (0, true), (4, false)]⟩ 7).store.state =
      (fun (s e : Nat) => s + e) 0 7 ∧
    (saveEvent (fun (s e : Nat) => s + e)
        ⟨0, [], [], [(3, false), (0, true), (4, false)]⟩ 7).store.events =
      [] ++ [7] :=
  c6_listener_fault_stops_notification _ ⟨0, [], [], [(3, false), (0, true), (4, false)]⟩
    7 [(3, false)] [(4, false)] 0 rfl (by decide)

/-- C7: replaying the live log equals replaying the compacted log, in which
the records are replaced by a single snapshot record capturing the replayed
state, provided the reducer treats a snapshot as replacing the state
wholesale; hence `getState()` after `takeSnapshot()` equals `getState()`
before it. -/
theorem c7_snapshot_preserves_state {S E : Type} (reducer : S → DbRecord S E → S)
    (initialState : S)
    (hSnap : ∀ (st : S) (i d : Nat) (data : S),
      reducer st (DbRecord.snapshot i d data) = data)
    (db : DbFiles S E) (i d : Nat) :
    (takeSnapshot reducer initialState i d db).log =
      [DbRecord.snapshot i d (dbGetState reducer initialState db)] ∧
    dbGetState reducer initialState (takeSnapshot reducer initialState i d db) =
      dbGetState reducer initialState db := by
  refine ⟨rfl, ?_⟩
  simp [dbGetState, takeSnapshot, hSnap]

/-- C7 witness: the snapshot equivalence evaluated on a two-event log with a
reducer that adds events and replaces the state on a snapshot. -/
theorem c7_snapshot_preserves_state_witness :
    dbGetState
        (fun (s : Nat) (r : DbRecord Nat Nat) => match r with
          | DbRecord.evt e => s + e
          | DbRecord.snapshot _ _ dd => dd) 0
        (takeSnapshot
          (fun (s : Nat) (r : DbRecord Nat Nat) => match r with
            | DbRecord.evt e => s + e
            | DbRecord.snapshot _ _ dd => dd) 0 9 9
          ⟨[DbRecord.evt 2, DbRecord.evt 3], []⟩) =
      dbGetState
        (fun (s : Nat) (r : DbRecord Nat Nat) => match r with
          | DbRecord.evt e => s + e
          | DbRecord.snapshot _ _ dd => dd) 0
        ⟨[DbRecord.evt 2, DbRecord.evt 3], []⟩ :=
  (c7_snapshot_preserves_state _ 0 (fun _ _ _ _ => rfl)
    ⟨[DbRecord.evt 2, DbRecord.evt 3], []⟩ 9 9).2

/-- C9: the claim says the lock guarantees at most one in-flight holder at
any time, FIFO-granted.  In the contended scenario — task 0 holds the lock,
tasks 1 and 2 request it, task 0 releases — resolving the stored promise
wakes both waiters and each proceeds to take the lock, so afterwards tasks 1
and 2 hold it simultaneously. -/
theorem c9_lock_double_grant :
    holdingCount lockScenario = 2 ∧
    lockScenario.phases =
      [LockPhase.released, LockPhase.holding 1, LockPhase.holding 2] := by
  decide

/-- C10: the claim says the uncommitted-events buffer is empty whenever no
transaction is executing, so no event can leak into a later call.  After a
transaction committing `1` then `2`, the buffer still holds `2`; a subsequent
transaction whose body commits nothing then persists that leftover event. -/
theorem c10_buffer_leaks_across_calls :
    (transaction (fun (s e : Nat) => s + e) ⟨0, [], [], []⟩
        [TxOp.commit 1, TxOp.commit 2] false).1.uncommitedEvents = [2] ∧
    transaction (fun (s e : Nat) => s + e)
        ((transaction (fun (s e : Nat) => s + e) ⟨0, [], [], []⟩
          [TxOp.commit 1, TxOp.commit 2] false).1) [] false =
      (⟨3, [1, 2], [], []⟩, false) := by
  decide

/-! ### C8 helper lemmas: whitespace and characters -/

theorem skipWs_cons_not_ws (c : Char) (t : List Char) (h : isWsChar c = false) :
    skipWs (c :: t) = c :: t := by
  simp [skipWs, List.dropWhile_cons, h]

theorem skipWs_append_ws (w t : List Char) (h : ∀ c ∈ w, isWsChar c = true) :
    skipWs (w ++ t) = skipWs t := by
  induction w with
  | nil => rfl
  | cons c w ih =>
    have hc : isWsChar c = true := h c (by simp)
    simp only [List.cons_append, skipWs, List.dropWhile_cons, hc, if_true]
    exact ih (fun x hx => h x (by simp [hx]))

theorem skipRegexWs_cons_not_ws (c : Char) (t : List Char)
    (h : isRegexWsChar c = false) :
    skipRegexWs (c :: t) = c :: t := by
  simp [skipRegexWs, List.dropWhile_cons, h]

theorem skipRegexWs_append_ws (w t : List Char) (h : ∀ c ∈ w, isRegexWsChar c = true) :
    skipRegexWs (w ++ t) = skipRegexWs t := by
  induction w with
  | nil => rfl
  | cons c w ih =>
    have hc : isRegexWsChar c = true := h c (by simp)
    simp only [List.cons_append, skipRegexWs, List.dropWhile_cons, hc, if_true]
    exact ih (fun x hx => h x (by simp [hx]))

theorem dropWhile_append_of_ne_nil (p : Char → Bool) (l t : List Char)
    (h : l.dropWhile p ≠ []) :
    (l ++ t).dropWhile p = l.dropWhile p ++ t := by
  induction l with
  | nil => simp at h
  | cons c l ih =>
    by_cases hc : p c
    · simp only [List.cons_append, List.dropWhile_cons, hc, if_true] at h ⊢
      exact ih h
    · simp [List.cons_append, List.dropWhile_cons, hc]

theorem isWs_not_digit (c : Char) (h : isWsChar c = true) : c.isDigit = false := by
  simp only [isWsChar, Bool.or_eq_true, decide_eq_true_eq] at h
  rcases h with ((h | h) | h) | h <;> subst h <;> rfl

theorem digitChar_facts (d : Nat) (h : d < 10) :
    (digitChar d).isDigit = true ∧ isWsChar (digitChar d) = false ∧
      digitVal (digitChar d) = d ∧ isRegexWsChar (digitChar d) = false := by
  interval_cases d <;> exact ⟨rfl, rfl, rfl, rfl⟩

theorem isDigit_ne (c : Char) (h : c.isDigit = true) :
    c ≠ ']' ∧ c ≠ ',' ∧ c ≠ '-' ∧ c ≠ 'n' ∧ c ≠ 't' ∧ c ≠ 'f' ∧
      c ≠ quoteChar ∧ c ≠ '[' ∧ c ≠ lbraceChar ∧ isWsChar c = false := by
  refine ⟨?_, ?_, ?_, ?_, ?_, ?_, ?_, ?_, ?_, ?_⟩
  all_goals first
    | (intro hEq; rw [hEq] at h; exact Bool.noConfusion h)
    | (by_cases hw : isWsChar c = true
       · rw [isWs_not_digit c hw] at h; exact Bool.noConfusion h
       · simpa using hw)

/-! ### C8 helper lemmas: serialized numbers -/

theorem natChars_mem (m : Nat) : ∀ c ∈ natChars m, ∃ d, d < 10 ∧ c = digitChar d := by
  intro c hc
  by_cases hm : m = 0
  · subst hm
    simp [natChars] at hc
    exact ⟨0, by norm_num, hc⟩
  · simp only [natChars, if_neg hm, List.mem_map, List.mem_reverse] at hc
    obtain ⟨d, hd, rfl⟩ := hc
    exact ⟨d, Nat.digits_lt_base (by norm_num) hd, rfl⟩

theorem natChars_isDigit (m : Nat) : ∀ c ∈ natChars m, c.isDigit = true := by
  intro c hc
  obtain ⟨d, hd, rfl⟩ := natChars_mem m c hc
  exact (digitChar_facts d hd).1

theorem natChars_ne_nil (m : Nat) : natChars m ≠ [] := by
  by_cases hm : m = 0
  · subst hm; simp [natChars]
  · simp [natChars, if_neg hm, Nat.digits_ne_nil_iff_ne_zero.mpr hm]

theorem natChars_head (m : Nat) :
    ∃ d t, d < 10 ∧ natChars m = digitChar d :: t := by
  rcases hnc : natChars m with _ | ⟨c, t⟩
  · exact absurd hnc (natChars_ne_nil m)
  · obtain ⟨d, hd, rfl⟩ := natChars_mem m c (by rw [hnc]; simp)
    exact ⟨d, t, hd, rfl⟩

theorem natChars_getLast (m : Nat) :
    ∃ d, d < 10 ∧ (natChars m).getLast? = some (digitChar d) := by
  have hne := natChars_ne_nil m
  rw [List.getLast?_eq_getLast_of_ne_nil hne]
  obtain ⟨d, hd, hEq⟩ := natChars_mem m _ (List.getLast_mem hne)
  exact ⟨d, hd, by rw [hEq]⟩

theorem foldl_digits (D : List Nat) (hD : ∀ d ∈ D, d < 10) :
    ∀ a : Nat, List.foldl (fun a c => 10 * a + digitVal c) a (D.reverse.map digitChar) =
      a * 10 ^ D.length + Nat.ofDigits 10 D := by
  induction D with
  | nil => intro a; simp [Nat.ofDigits]
  | cons d D ih =>
    intro a
    have hd : d < 10 := hD d (by simp)
    have hD' : ∀ x ∈ D, x < 10 := fun x hx => hD x (by simp [hx])
    simp only [List.reverse_cons, List.map_append, List.foldl_append]
    rw [ih hD' a]
    simp only [List.map_cons, List.map_nil, List.foldl_cons, List.foldl_nil,
      (digitChar_facts d hd).2.2.1, Nat.ofDigits_cons, List.length_cons]
    ring

theorem charsToNat_natChars (m : Nat) : charsToNat (natChars m) = m := by
  by_cases hm : m = 0
  · subst hm; rfl
  · have hd : ∀ d ∈ Nat.digits 10 m, d < 10 :=
      fun d hdm => Nat.digits_lt_base (by norm_num) hdm
    unfold natChars charsToNat
    rw [if_neg hm, foldl_digits (Nat.digits 10 m) hd 0]
    simp [Nat.ofDigits_digits]

theorem takeWhile_all_append (p : Char → Bool) (l t : List Char)
    (hl : ∀ c ∈ l, p c = true) (ht : ∀ c, t.head? = some c → p c = false) :
    (l ++ t).takeWhile p = l ∧ (l ++ t).dropWhile p = t := by
  induction l with
  | nil =>
    cases t with
    | nil => simp
    | cons c t =>
      have := ht c rfl
      simp [List.takeWhile_cons, List.dropWhile_cons, this]
  | cons c l ih =>
    have hc : p c = true := hl c (by simp)
    have ihr := ih (fun x hx => hl x (by simp [hx]))
    simp [List.takeWhile_cons, List.dropWhile_cons, hc, ihr.1, ihr.2]

theorem natChars_not_isEmpty (m : Nat) : (natChars m).isEmpty = true → False := by
  intro h
  exact natChars_ne_nil m (by simpa [List.isEmpty_iff] using h)

theorem parseNumTok_intChars (n : Int) (rest : List Char)
    (hr : headNotDigit rest) :
    parseNumTok (intChars n ++ rest) = some (Json.num n, rest) := by
  have hrest : ∀ c, rest.head? = some c → c.isDigit = false := by
    intro c hc
    cases rest with
    | nil => exact absurd hc (by simp)
    | cons x t =>
      simp only [List.head?_cons, Option.some.injEq] at hc
      subst hc
      exact hr
  unfold intChars
  by_cases hn : n < 0
  · rw [if_pos hn]
    have h1 := takeWhile_all_append Char.isDigit (natChars n.natAbs) rest
      (natChars_isDigit _) hrest
    have hstep : parseNumTok ('-' :: natChars n.natAbs ++ rest) =
        (if ((natChars n.natAbs ++ rest).takeWhile Char.isDigit).isEmpty then none
         else some
           (Json.num (-(charsToNat ((natChars n.natAbs ++ rest).takeWhile Char.isDigit) : Int)),
             (natChars n.natAbs ++ rest).dropWhile Char.isDigit)) := rfl
    rw [List.cons_append] at hstep
    rw [List.cons_append, hstep, h1.1, h1.2]
    rw [if_neg (natChars_not_isEmpty _)]
    rw [charsToNat_natChars]
    have hv : -((n.natAbs : Nat) : Int) = n := by omega
    rw [hv]
  · rw [if_neg hn]
    obtain ⟨d, t, hd, hnc⟩ := natChars_head n.toNat
    have h1 := takeWhile_all_append Char.isDigit (natChars n.toNat) rest
      (natChars_isDigit _) hrest
    have hcons : natChars n.toNat ++ rest = digitChar d :: (t ++ rest) := by
      rw [hnc]; rfl
    rw [hcons]
    simp only [parseNumTok]
    rw [if_neg (isDigit_ne _ (digitChar_facts d hd).1).2.2.1]
    rw [← hcons, h1.1, h1.2]
    rw [if_neg (natChars_not_isEmpty _)]
    rw [charsToNat_natChars]
    have hv : ((n.toNat : Nat) : Int) = n := by omega
    rw [hv]

/-! ### C8 helper lemmas: string literals -/

theorem hexVal_hexDigitChar (d : Nat) (h : d < 16) : hexVal (hexDigitChar d) = some d := by
  interval_cases d <;> rfl

theorem parseStrGo_u (a b : Nat) (ha : a < 2) (hb : b < 16) (X : List Char) :
    parseStrGo (backslashChar :: 'u' :: '0' :: '0' ::
        hexDigitChar a :: hexDigitChar b :: X) =
      (match parseStrGo X with
       | some (s2, r) => some (Char.ofNat (a * 16 + b) :: s2, r)
       | none => none) := by
  interval_cases a <;> interval_cases b <;> (rw [parseStrGo.eq_def]; rfl)

theorem parseStrGo_escape : ∀ (s rest : List Char),
    parseStrGo (escapeStr s ++ quoteChar :: rest) = some (s, rest) := by
  intro s
  induction s with
  | nil =>
    intro rest
    rw [show escapeStr [] ++ quoteChar :: rest = quoteChar :: rest from rfl]
    rw [parseStrGo.eq_def]; rfl
  | cons c s ih =>
    intro rest
    have hesc : escapeStr (c :: s) = escapeChar c ++ escapeStr s := rfl
    rw [hesc, List.append_assoc]
    unfold escapeChar
    by_cases h1 : c = quoteChar
    · subst h1
      rw [if_pos rfl]
      have hstep : parseStrGo ([backslashChar, quoteChar] ++ (escapeStr s ++ quoteChar :: rest)) =
          (match parseStrGo (escapeStr s ++ quoteChar :: rest) with
           | some (s2, r) => some (quoteChar :: s2, r)
           | none => none) := by
        rw [parseStrGo.eq_def]; rfl
      rw [hstep, ih rest]
    · rw [if_neg h1]
      by_cases h2 : c = backslashChar
      · subst h2
        rw [if_pos rfl]
        have hstep : parseStrGo ([backslashChar, backslashChar] ++ (escapeStr s ++ quoteChar :: rest)) =
            (match parseStrGo (escapeStr s ++ quoteChar :: rest) with
             | some (s2, r) => some (backslashChar :: s2, r)
             | none => none) := by
          rw [parseStrGo.eq_def]; rfl
        rw [hstep, ih rest]
      · rw [if_neg h2]
        by_cases h3 : c = '\n'
        · subst h3
          rw [if_pos rfl]
          have hstep : parseStrGo ([backslashChar, 'n'] ++ (escapeStr s ++ quoteChar :: rest)) =
              (match parseStrGo (escapeStr s ++ quoteChar :: rest) with
               | some (s2, r) => some ('\n' :: s2, r)
               | none => none) := by
            rw [parseStrGo.eq_def]; rfl
          rw [hstep, ih rest]
        · rw [if_neg h3]
          by_cases h4 : c = '\r'
          · subst h4
            rw [if_pos rfl]
            have hstep : parseStrGo ([backslashChar, 'r'] ++ (escapeStr s ++ quoteChar :: rest)) =
                (match parseStrGo (escapeStr s ++ quoteChar :: rest) with
                 | some (s2, r) => some ('\r' :: s2, r)
                 | none => none) := by
              rw [parseStrGo.eq_def]; rfl
            rw [hstep, ih rest]
          · rw [if_neg h4]
            by_cases h5 : c = '\t'
            · subst h5
              rw [if_pos rfl]
              have hstep : parseStrGo ([backslashChar, 't'] ++ (escapeStr s ++ quoteChar :: rest)) =
                  (match parseStrGo (escapeStr s ++ quoteChar :: rest) with
                   | some (s2, r) => some ('\t' :: s2, r)
                   | none => none) := by
                rw [parseStrGo.eq_def]; rfl
              rw [hstep, ih rest]
            · rw [if_neg h5]
              by_cases h6 : c = Char.ofNat 8
              · subst h6
                rw [if_pos rfl]
                have hstep : parseStrGo ([backslashChar, 'b'] ++ (escapeStr s ++ quoteChar :: rest)) =
                    (match parseStrGo (escapeStr s ++ quoteChar :: rest) with
                     | some (s2, r) => some (Char.ofNat 8 :: s2, r)
                     | none => none) := by
                  rw [parseStrGo.eq_def]; rfl
                rw [hstep, ih rest]
              · rw [if_neg h6]
                by_cases h7 : c = Char.ofNat 12
                · subst h7
                  rw [if_pos rfl]
                  have hstep : parseStrGo ([backslashChar, 'f'] ++ (escapeStr s ++ quoteChar :: rest)) =
                      (match parseStrGo (escapeStr s ++ quoteChar :: rest) with
                       | some (s2, r) => some (Char.ofNat 12 :: s2, r)
                       | none => none) := by
                    rw [parseStrGo.eq_def]; rfl
                  rw [hstep, ih rest]
                · rw [if_neg h7]
                  by_cases h8 : c.toNat < 32
                  · rw [if_pos h8]
                    have ha : c.toNat / 16 < 2 := by omega
                    have hb : c.toNat % 16 < 16 := by omega
                    have hli : [backslashChar, 'u', '0', '0',
                          hexDigitChar (c.toNat / 16), hexDigitChar (c.toNat % 16)] ++
                        (escapeStr s ++ quoteChar :: rest) =
                        backslashChar :: 'u' :: '0' :: '0' ::
                          hexDigitChar (c.toNat / 16) :: hexDigitChar (c.toNat % 16) ::
                          (escapeStr s ++ quoteChar :: rest) := rfl
                    rw [hli, parseStrGo_u _ _ ha hb, ih rest]
                    rw [show c.toNat / 16 * 16 + c.toNat % 16 = c.toNat from by omega,
                      Char.ofNat_toNat]
                  · rw [if_neg h8]
                    have hli : [c] ++ (escapeStr s ++ quoteChar :: rest) =
                        c :: (escapeStr s ++ quoteChar :: rest) := rfl
                    rw [hli, parseStrGo.eq_def]
                    simp only [if_neg h1, if_neg h2, if_neg h8]
                    rw [ih rest]

theorem parseVal_cons_ws (g : Nat) (c : Char) (X : List Char) (hc : isWsChar c = true) :
    parseVal (g + 1) (c :: X) = parseVal (g + 1) X := by
  have hsw : skipWs (c :: X) = skipWs X := by
    simp [skipWs, List.dropWhile_cons, hc]
  rw [parseVal.eq_def]
  conv_rhs => rw [parseVal.eq_def]
  simp only [hsw]

theorem parseVal_ws (g : Nat) (w cs : List Char) (hw : ∀ c ∈ w, isWsChar c = true) :
    parseVal (g + 1) (w ++ cs) = parseVal (g + 1) cs := by
  induction w with
  | nil => rfl
  | cons c w ih =>
    rw [List.cons_append, parseVal_cons_ws g c (w ++ cs) (hw c (by simp))]
    exact ih (fun x hx => hw x (by simp [hx]))

/-! ### C8 helper lemmas: heads and last characters of serializations -/

theorem intChars_head (n : Int) :
    ∃ c t, intChars n = c :: t ∧ isWsChar c = false ∧ isRegexWsChar c = false ∧
      c ≠ ']' ∧ c ≠ 'n' ∧ c ≠ 't' ∧ c ≠ 'f' ∧ c ≠ quoteChar ∧ c ≠ '[' ∧
      c ≠ lbraceChar ∧ (c = '-' ∨ c.isDigit = true) := by
  unfold intChars
  by_cases hn : n < 0
  · rw [if_pos hn]
    exact ⟨'-', natChars n.natAbs, rfl, by decide, by decide, by decide, by decide,
      by decide, by decide, by decide, by decide, by decide, Or.inl rfl⟩
  · rw [if_neg hn]
    obtain ⟨d, t, hd, hnc⟩ := natChars_head n.toNat
    obtain ⟨hdig, hws, _, hrws⟩ := digitChar_facts d hd
    obtain ⟨hne1, _, _, hne4, hne5, hne6, hne7, hne8, hne9, _⟩ := isDigit_ne _ hdig
    exact ⟨digitChar d, t, hnc, hws, hrws, hne1, hne4, hne5, hne6, hne7, hne8, hne9,
      Or.inr hdig⟩

theorem stringify_head (v : Json) :
    ∃ c t, stringify v = c :: t ∧ isWsChar c = false ∧ isRegexWsChar c = false ∧
      c ≠ ']' := by
  cases v with
  | null => exact ⟨'n', _, rfl, by decide, by decide, by decide⟩
  | bool b =>
    cases b with
    | false => exact ⟨'f', _, rfl, by decide, by decide, by decide⟩
    | true => exact ⟨'t', _, rfl, by decide, by decide, by decide⟩
  | num n =>
    obtain ⟨c, t, hct, hws, hrws, hb, _⟩ := intChars_head n
    exact ⟨c, t, by rw [show stringify (Json.num n) = intChars n from rfl, hct],
      hws, hrws, hb⟩
  | str s => exact ⟨quoteChar, _, rfl, by decide, by decide, by decide⟩
  | arr xs =>
    cases xs with
    | nil => exact ⟨'[', _, rfl, by decide, by decide, by decide⟩
    | cons x xs => exact ⟨'[', _, rfl, by decide, by decide, by decide⟩
  | obj kvs =>
    cases kvs with
    | nil => exact ⟨lbraceChar, _, rfl, by decide, by decide, by decide⟩
    | cons k v kvs => exact ⟨lbraceChar, _, rfl, by decide, by decide, by decide⟩

theorem stringify_getLast (v : Json) :
    ∃ c, (stringify v).getLast? = some c ∧ isRegexWsChar c = false ∧ c ≠ ',' := by
  cases v with
  | null => exact ⟨'l', rfl, by decide, by decide⟩
  | bool b =>
    cases b with
    | false => exact ⟨'e', rfl, by decide, by decide⟩
    | true => exact ⟨'e', rfl, by decide, by decide⟩
  | num n =>
    rw [show stringify (Json.num n) = intChars n from rfl]
    unfold intChars
    by_cases hn : n < 0
    · rw [if_pos hn]
      obtain ⟨d, hd, hl⟩ := natChars_getLast n.natAbs
      obtain ⟨hdig, _, _, hrws⟩ := digitChar_facts d hd
      obtain ⟨_, hcomma, _⟩ := isDigit_ne _ hdig
      obtain ⟨c0, t0, _, hnc⟩ := natChars_head n.natAbs
      refine ⟨digitChar d, ?_, hrws, hcomma⟩
      rw [hnc] at hl ⊢
      rw [List.getLast?_cons_cons, hl]
    · rw [if_neg hn]
      obtain ⟨d, hd, hl⟩ := natChars_getLast n.toNat
      obtain ⟨hdig, _, _, hrws⟩ := digitChar_facts d hd
      obtain ⟨_, hcomma, _⟩ := isDigit_ne _ hdig
      exact ⟨digitChar d, hl, hrws, hcomma⟩
  | str s =>
    refine ⟨quoteChar, ?_, by decide, by decide⟩
    rw [show stringify (Json.str s) = (quoteChar :: escapeStr s) ++ [quoteChar] from rfl]
    exact List.getLast?_concat _
  | arr xs =>
    cases xs with
    | nil => exact ⟨']', rfl, by decide, by decide⟩
    | cons x xs =>
      refine ⟨']', ?_, by decide, by decide⟩
      rw [show stringify (Json.arr (JsonList.cons x xs)) =
        ('[' :: (stringify x ++ stringifyItems xs)) ++ [']'] from by simp [stringify]]
      exact List.getLast?_concat _
  | obj kvs =>
    cases kvs with
    | nil => exact ⟨rbraceChar, rfl, by decide, by decide⟩
    | cons k v kvs =>
      refine ⟨rbraceChar, ?_, by decide, by decide⟩
      rw [show stringify (Json.obj (JsonFields.cons k v kvs)) =
        (lbraceChar :: (stringifyKey k ++ stringify v ++ stringifyMembers kvs)) ++
          [rbraceChar] from by simp [stringify]]
      exact List.getLast?_concat _

theorem stringify_ne_nil (v : Json) : stringify v ≠ [] := by
  obtain ⟨c, t, hct, _, _⟩ := stringify_head v
  rw [hct]
  exact List.cons_ne_nil c t

theorem pfuel_pos (v : Json) : 1 ≤ pfuel v := by
  cases v <;> simp [pfuel]

theorem pfuelItems_pos (xs : JsonList) : 1 ≤ pfuelItems xs := by
  cases xs <;> simp [pfuelItems]

theorem pfuelFields_pos (kvs : JsonFields) : 1 ≤ pfuelFields kvs := by
  cases kvs <;> simp [pfuelFields]

theorem itemsShape_stringify : ∀ (x : Json) (xs : JsonList),
    ItemsShape (JsonList.cons x xs) (stringify x ++ stringifyItems xs ++ [']'])
  | x, JsonList.nil => by
    have h : stringify x ++ stringifyItems JsonList.nil ++ [']'] =
        [] ++ stringify x ++ [] ++ [']'] := by simp [stringifyItems]
    rw [h]
    exact ItemsShape.last x [] [] (by simp) (by simp)
  | x, JsonList.cons y ys => by
    have ih := itemsShape_stringify y ys
    have h : stringify x ++ stringifyItems (JsonList.cons y ys) ++ [']'] =
        [] ++ stringify x ++ [] ++ [','] ++ (stringify y ++ stringifyItems ys ++ [']']) := by
      simp [stringifyItems]
    rw [h]
    exact ItemsShape.cons x _ [] [] _ (by simp) (by simp) ih

theorem fieldsShape_stringify : ∀ (k : List Char) (v : Json) (kvs : JsonFields),
    FieldsShape (JsonFields.cons k v kvs)
      (stringifyKey k ++ stringify v ++ stringifyMembers kvs ++ [rbraceChar])
  | k, v, JsonFields.nil => by
    have h : stringifyKey k ++ stringify v ++ stringifyMembers JsonFields.nil ++
          [rbraceChar] =
        stringifyKey k ++ stringify v ++ [rbraceChar] := by simp [stringifyMembers]
    rw [h]
    exact FieldsShape.last k v
  | k, v, JsonFields.cons k2 v2 kvs => by
    have ih := fieldsShape_stringify k2 v2 kvs
    have h : stringifyKey k ++ stringify v ++ stringifyMembers (JsonFields.cons k2 v2 kvs) ++
          [rbraceChar] =
        stringifyKey k ++ stringify v ++ [','] ++
          (stringifyKey k2 ++ stringify v2 ++ stringifyMembers kvs ++ [rbraceChar]) := by
      simp [stringifyMembers]
    rw [h]
    exact FieldsShape.cons k v _ _ ih

/-! ### C8 helper lemmas: one-token dispatch of `parseVal` -/

theorem parseVal_ws_all (f : Nat) (w cs : List Char)
    (hw : ∀ c ∈ w, isWsChar c = true) :
    parseVal f (w ++ cs) = parseVal f cs := by
  cases f with
  | zero => rfl
  | succ g => exact parseVal_ws g w cs hw

theorem parseVal_null_tok (g : Nat) (X : List Char) :
    parseVal (g + 1) ('n' :: 'u' :: 'l' :: 'l' :: X) = some (Json.null, X) := by
  rw [parseVal.eq_def]; rfl

theorem parseVal_true_tok (g : Nat) (X : List Char) :
    parseVal (g + 1) ('t' :: 'r' :: 'u' :: 'e' :: X) = some (Json.bool true, X) := by
  rw [parseVal.eq_def]; rfl

theorem parseVal_false_tok (g : Nat) (X : List Char) :
    parseVal (g + 1) ('f' :: 'a' :: 'l' :: 's' :: 'e' :: X) = some (Json.bool false, X) := by
  rw [parseVal.eq_def]; rfl

theorem parseVal_quote_tok (g : Nat) (X : List Char) :
    parseVal (g + 1) (quoteChar :: X) =
      (match parseStrGo X with
       | some (s, r) => some (Json.str s, r)
       | none => none) := by
  rw [parseVal.eq_def]; rfl

theorem parseVal_lbrack_tok (g : Nat) (X : List Char) :
    parseVal (g + 1) ('[' :: X) =
      (match skipWs X with
       | [] => none
       | c2 :: r2 =>
         if c2 = ']' then some (Json.arr JsonList.nil, r2)
         else
           match parseItems g (c2 :: r2) with
           | some (vs, r) => some (Json.arr vs, r)
           | none => none) := by
  rw [parseVal.eq_def]; rfl

theorem parseVal_lbrace_tok (g : Nat) (X : List Char) :
    parseVal (g + 1) (lbraceChar :: X) =
      (match skipWs X with
       | [] => none
       | c2 :: r2 =>
         if c2 = rbraceChar then some (Json.obj JsonFields.nil, r2)
         else
           match parseFields g (c2 :: r2) with
           | some (kvs, r) => some (Json.obj kvs, r)
           | none => none) := by
  rw [parseVal.eq_def]; rfl

theorem parseVal_num_tok (g : Nat) (c : Char) (t : List Char)
    (hws : isWsChar c = false) (hn : c ≠ 'n') (ht : c ≠ 't') (hf : c ≠ 'f')
    (hq : c ≠ quoteChar) (hb : c ≠ '[') (ho : c ≠ lbraceChar)
    (hnum : c = '-' ∨ c.isDigit = true) :
    parseVal (g + 1) (c :: t) = parseNumTok (c :: t) := by
  rw [parseVal.eq_def]
  simp only [skipWs_cons_not_ws c t hws]
  have hcond : (c = '-' || c.isDigit) = true := by
    rcases hnum with h | h
    · simp [h]
    · simp [h]
  simp [hn, ht, hf, hq, hb, ho, hcond]

/-! ### C8: the parser inverts the serializer -/

theorem parseItems_succ (g : Nat) (cs : List Char) :
    parseItems (g + 1) cs =
      (match parseVal g cs with
       | none => none
       | some (v, rest) =>
         match skipWs rest with
         | [] => none
         | c :: r =>
           if c = ',' then
             match parseItems g r with
             | some (vs, rr) => some (JsonList.cons v vs, rr)
             | none => none
           else if c = ']' then some (JsonList.cons v JsonList.nil, r)
           else none) := by
  rw [parseItems.eq_def]

theorem parseFields_succ (g : Nat) (cs : List Char) :
    parseFields (g + 1) cs =
      (match skipWs cs with
       | [] => none
       | c :: rest =>
         if c = quoteChar then
           match parseStrGo rest with
           | none => none
           | some (k, r1) =>
             match skipWs r1 with
             | ':' :: r2 =>
               match parseVal g r2 with
               | none => none
               | some (v, r3) =>
                 match skipWs r3 with
                 | [] => none
                 | c4 :: r4 =>
                   if c4 = ',' then
                     match parseFields g r4 with
                     | some (kvs, rr) => some (JsonFields.cons k v kvs, rr)
                     | none => none
                   else if c4 = rbraceChar then
                     some (JsonFields.cons k v JsonFields.nil, r4)
                   else none
             | _ => none
         else none) := by
  rw [parseFields.eq_def]

theorem headNotDigit_ws_append (w : List Char) (c0 : Char) (rest : List Char)
    (hw : ∀ c ∈ w, isWsChar c = true) (hc0 : c0.isDigit = false) :
    headNotDigit (w ++ c0 :: rest) := by
  cases w with
  | nil => exact hc0
  | cons c w => exact isWs_not_digit c (hw c (by simp))

theorem parse_stringify_main : ∀ f : Nat,
    (∀ (v : Json) (rest : List Char), pfuel v ≤ f → headNotDigit rest →
      parseVal f (stringify v ++ rest) = some (v, rest)) ∧
    (∀ (vs : JsonList) (t rest : List Char), ItemsShape vs t → pfuelItems vs ≤ f →
      parseItems f (t ++ rest) = some (vs, rest)) ∧
    (∀ (kvs : JsonFields) (t rest : List Char), FieldsShape kvs t → pfuelFields kvs ≤ f →
      parseFields f (t ++ rest) = some (kvs, rest)) := by
  intro f
  induction f with
  | zero =>
    refine ⟨?_, ?_, ?_⟩
    · intro v rest hfl _
      exact absurd hfl (by have := pfuel_pos v; omega)
    · intro vs t rest _ hfl
      exact absurd hfl (by have := pfuelItems_pos vs; omega)
    · intro kvs t rest _ hfl
      exact absurd hfl (by have := pfuelFields_pos kvs; omega)
  | succ g ih =>
    obtain ⟨ihV, ihI, ihF⟩ := ih
    refine ⟨?_, ?_, ?_⟩
    · -- parseVal on a serialized value
      intro v rest hfl hnd
      cases v with
      | null =>
        rw [show stringify Json.null ++ rest = 'n' :: 'u' :: 'l' :: 'l' :: rest
          from by simp [stringify]]
        exact parseVal_null_tok g rest
      | bool b =>
        cases b with
        | true =>
          rw [show stringify (Json.bool true) ++ rest = 't' :: 'r' :: 'u' :: 'e' :: rest
            from by simp [stringify]]
          exact parseVal_true_tok g rest
        | false =>
          rw [show stringify (Json.bool false) ++ rest =
            'f' :: 'a' :: 'l' :: 's' :: 'e' :: rest from by simp [stringify]]
          exact parseVal_false_tok g rest
      | num n =>
        obtain ⟨c, t, hct, hws, _, _, hn, ht', hf', hq, hb, ho, hnum⟩ := intChars_head n
        have hs : stringify (Json.num n) ++ rest = c :: (t ++ rest) := by
          rw [show stringify (Json.num n) = intChars n from by simp [stringify], hct]
          simp
        rw [hs, parseVal_num_tok g c (t ++ rest) hws hn ht' hf' hq hb ho hnum]
        rw [show c :: (t ++ rest) = intChars n ++ rest from by rw [hct]; simp]
        exact parseNumTok_intChars n rest hnd
      | str s =>
        rw [show stringify (Json.str s) ++ rest =
          quoteChar :: (escapeStr s ++ quoteChar :: rest) from by simp [stringify]]
        rw [parseVal_quote_tok, parseStrGo_escape s rest]
      | arr xs =>
        cases xs with
        | nil =>
          rw [show stringify (Json.arr JsonList.nil) ++ rest = '[' :: ']' :: rest
            from by simp [stringify]]
          rw [parseVal_lbrack_tok]
          rfl
        | cons x xs =>
          rw [show stringify (Json.arr (JsonList.cons x xs)) ++ rest =
            '[' :: (stringify x ++ (stringifyItems xs ++ (']' :: rest)))
            from by simp [stringify]]
          rw [parseVal_lbrack_tok]
          obtain ⟨c, t, hct, hws, _, hbr⟩ := stringify_head x
          have h2 : stringify x ++ (stringifyItems xs ++ (']' :: rest)) =
              c :: (t ++ (stringifyItems xs ++ (']' :: rest))) := by
            rw [hct]; simp
          rw [h2, skipWs_cons_not_ws _ _ hws]
          simp only [if_neg hbr]
          rw [← h2]
          have hfuel : pfuelItems (JsonList.cons x xs) ≤ g := by
            simp only [pfuel] at hfl
            omega
          have hit := ihI (JsonList.cons x xs)
            (stringify x ++ stringifyItems xs ++ [']']) rest
            (itemsShape_stringify x xs) hfuel
          simp only [List.append_assoc, List.singleton_append] at hit
          rw [hit]
      | obj kvs =>
        cases kvs with
        | nil =>
          rw [show stringify (Json.obj JsonFields.nil) ++ rest =
            lbraceChar :: rbraceChar :: rest from by simp [stringify]]
          rw [parseVal_lbrace_tok]
          rfl
        | cons k v2 kvs =>
          rw [show stringify (Json.obj (JsonFields.cons k v2 kvs)) ++ rest =
            lbraceChar :: (stringifyKey k ++ (stringify v2 ++
              (stringifyMembers kvs ++ (rbraceChar :: rest))))
            from by simp [stringify]]
          rw [parseVal_lbrace_tok]
          have h2 : stringifyKey k ++ (stringify v2 ++
              (stringifyMembers kvs ++ (rbraceChar :: rest))) =
              quoteChar :: ((escapeStr k ++ [quoteChar, ':']) ++ (stringify v2 ++
                (stringifyMembers kvs ++ (rbraceChar :: rest)))) := by
            simp [stringifyKey]
          rw [h2, skipWs_cons_not_ws _ _ (by decide)]
          simp only [if_neg (show ¬ (quoteChar = rbraceChar) from by decide)]
          rw [← h2]
          have hfuel : pfuelFields (JsonFields.cons k v2 kvs) ≤ g := by
            simp only [pfuel] at hfl
            omega
          have hit := ihF (JsonFields.cons k v2 kvs)
            (stringifyKey k ++ stringify v2 ++ stringifyMembers kvs ++ [rbraceChar]) rest
            (fieldsShape_stringify k v2 kvs) hfuel
          simp only [List.append_assoc, List.singleton_append] at hit
          rw [hit]
    · -- parseItems on shaped element text
      intro vs t rest hshape hfl
      cases hshape with
      | last v w1 w2 hw1 hw2 =>
        rw [parseItems_succ]
        have hfuel : pfuel v ≤ g := by
          simp only [pfuelItems] at hfl
          have := le_max_left (pfuel v) (pfuelItems JsonList.nil)
          omega
        have hnd : headNotDigit (w2 ++ ']' :: rest) :=
          headNotDigit_ws_append w2 ']' rest hw2 (by decide)
        have hv : parseVal g ((w1 ++ (stringify v ++ (w2 ++ [']']))) ++ rest) =
            some (v, w2 ++ ']' :: rest) := by
          simp only [List.append_assoc, List.singleton_append]
          rw [parseVal_ws_all g w1 _ hw1]
          exact ihV v (w2 ++ ']' :: rest) hfuel hnd
        have hsw : skipWs (w2 ++ ']' :: rest) = ']' :: rest := by
          rw [skipWs_append_ws w2 _ hw2]
          exact skipWs_cons_not_ws ']' rest (by decide)
        simp only [List.append_assoc, List.singleton_append] at hv ⊢
        rw [hv]
        simp only [hsw]
        rfl
      | cons v vs' w1 w2 t' hw1 hw2 hsub =>
        rw [parseItems_succ]
        have hfuel : pfuel v ≤ g := by
          simp only [pfuelItems] at hfl
          have := le_max_left (pfuel v) (pfuelItems vs')
          omega
        have hfuel2 : pfuelItems vs' ≤ g := by
          simp only [pfuelItems] at hfl
          have := le_max_right (pfuel v) (pfuelItems vs')
          omega
        have hnd : headNotDigit (w2 ++ ',' :: (t' ++ rest)) :=
          headNotDigit_ws_append w2 ',' (t' ++ rest) hw2 (by decide)
        have hv : parseVal g ((w1 ++ (stringify v ++ (w2 ++ [','] ++ t'))) ++ rest) =
            some (v, w2 ++ ',' :: (t' ++ rest)) := by
          simp only [List.append_assoc, List.singleton_append]
          rw [parseVal_ws_all g w1 _ hw1]
          exact ihV v (w2 ++ ',' :: (t' ++ rest)) hfuel hnd
        have hsw : skipWs (w2 ++ ',' :: (t' ++ rest)) = ',' :: (t' ++ rest) := by
          rw [skipWs_append_ws w2 _ hw2]
          exact skipWs_cons_not_ws ',' (t' ++ rest) (by decide)
        simp only [List.append_assoc, List.singleton_append] at hv ⊢
        rw [hv]
        simp only [hsw]
        rw [ihI vs' t' rest hsub hfuel2]
        simp
    · -- parseFields on shaped member text
      intro kvs t rest hshape hfl
      cases hshape with
      | last k v =>
        rw [parseFields_succ]
        have hfuel : pfuel v ≤ g := by
          simp only [pfuelFields] at hfl
          have := le_max_left (pfuel v) (pfuelFields JsonFields.nil)
          omega
        have hkey : (stringifyKey k ++ stringify v ++ [rbraceChar]) ++ rest =
            quoteChar :: (escapeStr k ++ quoteChar ::
              (':' :: (stringify v ++ rbraceChar :: rest))) := by
          simp [stringifyKey]
        have hsw1 : skipWs (quoteChar :: (escapeStr k ++ quoteChar ::
            (':' :: (stringify v ++ rbraceChar :: rest)))) =
            quoteChar :: (escapeStr k ++ quoteChar ::
              (':' :: (stringify v ++ rbraceChar :: rest))) :=
          skipWs_cons_not_ws quoteChar _ (by decide)
        rw [hkey]
        simp only [hsw1]
        have hstr := parseStrGo_escape k (':' :: (stringify v ++ rbraceChar :: rest))
        simp only [if_pos rfl, hstr]
        have hsw2 : skipWs (':' :: (stringify v ++ rbraceChar :: rest)) =
            ':' :: (stringify v ++ rbraceChar :: rest) :=
          skipWs_cons_not_ws ':' _ (by decide)
        simp only [hsw2]
        have hval := ihV v (rbraceChar :: rest) hfuel
          (show rbraceChar.isDigit = false from by decide)
        simp only [hval]
        have hsw3 : skipWs (rbraceChar :: rest) = rbraceChar :: rest :=
          skipWs_cons_not_ws rbraceChar rest (by decide)
        simp only [hsw3]
        rfl
      | cons k v kvs' t' hsub =>
        rw [parseFields_succ]
        have hfuel : pfuel v ≤ g := by
          simp only [pfuelFields] at hfl
          have := le_max_left (pfuel v) (pfuelFields kvs')
          omega
        have hfuel2 : pfuelFields kvs' ≤ g := by
          simp only [pfuelFields] at hfl
          have := le_max_right (pfuel v) (pfuelFields kvs')
          omega
        have hkey : (stringifyKey k ++ stringify v ++ [','] ++ t') ++ rest =
            quoteChar :: (escapeStr k ++ quoteChar ::
              (':' :: (stringify v ++ ',' :: (t' ++ rest)))) := by
          simp [stringifyKey]
        have hsw1 : skipWs (quoteChar :: (escapeStr k ++ quoteChar ::
            (':' :: (stringify v ++ ',' :: (t' ++ rest))))) =
            quoteChar :: (escapeStr k ++ quoteChar ::
              (':' :: (stringify v ++ ',' :: (t' ++ rest)))) :=
          skipWs_cons_not_ws quoteChar _ (by decide)
        rw [hkey]
        simp only [hsw1]
        have hstr := parseStrGo_escape k (':' :: (stringify v ++ ',' :: (t' ++ rest)))
        simp only [if_pos rfl, hstr]
        have hsw2 : skipWs (':' :: (stringify v ++ ',' :: (t' ++ rest))) =
            ':' :: (stringify v ++ ',' :: (t' ++ rest)) :=
          skipWs_cons_not_ws ':' _ (by decide)
        simp only [hsw2]
        have hval := ihV v (',' :: (t' ++ rest)) hfuel
          (show Char.isDigit ',' = false from by decide)
        simp only [hval]
        have hsw3 : skipWs (',' :: (t' ++ rest)) = ',' :: (t' ++ rest) :=
          skipWs_cons_not_ws ',' _ (by decide)
        simp only [hsw3]
        have hits := ihF kvs' t' rest hsub hfuel2
        simp only [if_pos rfl, hits]
        simp

/-! ### C8: behaviour of the dangling-comma removal -/

theorem stripDangling_append : ∀ (s t : List Char),
    containsPat s = false →
    (∃ c, s.getLast? = some c ∧ isRegexWsChar c = false ∧ c ≠ ',') →
    stripDangling (s ++ t) = s ++ stripDangling t := by
  intro s
  induction s with
  | nil =>
    intro t _ hlast
    obtain ⟨c, hc, _, _⟩ := hlast
    simp at hc
  | cons a s ih =>
    intro t hpat hlast
    cases s with
    | nil =>
      obtain ⟨c, hc, hcw, hcc⟩ := hlast
      have hca : c = a := by simpa using hc.symm
      have ha : ¬ (a = ',') := by rw [← hca]; exact hcc
      rw [show ([a] ++ t) = a :: t from rfl]
      rw [stripDangling.eq_def]
      simp only [if_neg ha]
      simp
    | cons b s2 =>
      obtain ⟨c, hc, hcw, hcc⟩ := hlast
      have hc2 : (b :: s2).getLast? = some c := by
        rw [List.getLast?_cons_cons] at hc
        exact hc
      by_cases ha : a = ','
      · subst ha
        have hcp : wsThenBracket (b :: s2) = false ∧ containsPat (b :: s2) = false := by
          rw [containsPat.eq_def] at hpat
          by_cases hw : wsThenBracket (b :: s2)
          · simp [hw] at hpat
          · refine ⟨by simpa using hw, ?_⟩
            simpa [hw] using hpat
        have hdw_ne : (b :: s2).dropWhile isRegexWsChar ≠ [] := by
          intro hnil
          have hall := List.dropWhile_eq_nil_iff.mp hnil
          have hgl := List.getLast?_eq_getLast_of_ne_nil
            (List.cons_ne_nil b s2)
          rw [hgl] at hc2
          have hceq : (b :: s2).getLast (List.cons_ne_nil b s2) = c := by
            simpa using hc2
          have hcmem : c ∈ b :: s2 := hceq ▸ List.getLast_mem (List.cons_ne_nil b s2)
          have := hall c hcmem
          rw [this] at hcw
          exact Bool.noConfusion hcw
        obtain ⟨d, ds, hds⟩ : ∃ d ds, (b :: s2).dropWhile isRegexWsChar = d :: ds := by
          rcases hx : (b :: s2).dropWhile isRegexWsChar with _ | ⟨d, ds⟩
          · exact absurd hx hdw_ne
          · exact ⟨d, ds, rfl⟩
        have hd_ne : (d = ']') = False := by
          have hwtb := hcp.1
          rw [wsThenBracket.eq_def] at hwtb
          rw [show skipRegexWs (b :: s2) = (b :: s2).dropWhile isRegexWsChar from rfl,
            hds] at hwtb
          simpa using hwtb
        have hwtb2 : wsThenBracket ((b :: s2) ++ t) = false := by
          rw [wsThenBracket.eq_def]
          rw [show skipRegexWs ((b :: s2) ++ t) =
              ((b :: s2).dropWhile isRegexWsChar) ++ t from
            dropWhile_append_of_ne_nil isRegexWsChar (b :: s2) t hdw_ne]
          rw [hds]
          simpa using hd_ne
        rw [show ((',' :: (b :: s2)) ++ t) = ',' :: ((b :: s2) ++ t) from rfl]
        rw [stripDangling.eq_def]
        simp only [if_pos rfl, hwtb2, Bool.false_eq_true, if_false]
        rw [ih t hcp.2 ⟨c, hc2, hcw, hcc⟩]
        simp
      · have hcp2 : containsPat (b :: s2) = false := by
          rw [containsPat.eq_def] at hpat
          simpa [ha] using hpat
        rw [show ((a :: (b :: s2)) ++ t) = a :: ((b :: s2) ++ t) from rfl]
        rw [stripDangling.eq_def]
        simp only [if_neg ha]
        rw [ih t hcp2 ⟨c, hc2, hcw, hcc⟩]
        simp

/-! ### C8: assembling the file-level round trip -/

mutual
theorem pfuel_le_stringify : ∀ v : Json, pfuel v ≤ (stringify v).length
  | Json.null => by simp [pfuel, stringify]
  | Json.bool b => by cases b <;> simp [pfuel, stringify]
  | Json.num n => by
    have h : intChars n ≠ [] := by
      unfold intChars
      by_cases hn : n < 0
      · simp [if_pos hn]
      · simp [if_neg hn, natChars_ne_nil]
    have := List.length_pos.mpr h
    simp only [pfuel, stringify]
    omega
  | Json.str s => by simp [pfuel, stringify]
  | Json.arr JsonList.nil => by simp [pfuel, pfuelItems, stringify]
  | Json.arr (JsonList.cons x xs) => by
    have h1 := pfuel_le_stringify x
    have h2 := pfuelItems_le_stringifyItems xs
    have h3 := List.length_pos.mpr (stringify_ne_nil x)
    have hm : max (pfuel x) (pfuelItems xs) ≤
        (stringify x).length + (stringifyItems xs).length :=
      Nat.max_le.mpr ⟨by omega, by omega⟩
    simp only [pfuel, pfuelItems, stringify, List.length_cons, List.length_append,
      List.length_singleton]
    omega
  | Json.obj JsonFields.nil => by simp [pfuel, pfuelFields, stringify]
  | Json.obj (JsonFields.cons k v kvs) => by
    have h1 := pfuel_le_stringify v
    have h2 := pfuelFields_le_stringifyMembers kvs
    have h3 := List.length_pos.mpr (stringify_ne_nil v)
    have hm : max (pfuel v) (pfuelFields kvs) ≤
        (stringifyKey k).length + (stringify v).length + (stringifyMembers kvs).length := by
      have hk : 1 ≤ (stringifyKey k).length := by simp [stringifyKey]
      exact Nat.max_le.mpr ⟨by omega, by omega⟩
    simp only [pfuel, pfuelFields, stringify, List.length_cons, List.length_append,
      List.length_singleton]
    omega

theorem pfuelItems_le_stringifyItems : ∀ xs : JsonList,
    pfuelItems xs ≤ (stringifyItems xs).length + 1
  | JsonList.nil => by simp [pfuelItems, stringifyItems]
  | JsonList.cons x xs => by
    have h1 := pfuel_le_stringify x
    have h2 := pfuelItems_le_stringifyItems xs
    have hm : max (pfuel x) (pfuelItems xs) ≤
        (stringify x).length + (stringifyItems xs).length + 1 :=
      Nat.max_le.mpr ⟨by omega, by omega⟩
    simp only [pfuelItems, stringifyItems, List.length_cons, List.length_append]
    omega

theorem pfuelFields_le_stringifyMembers : ∀ kvs : JsonFields,
    pfuelFields kvs ≤ (stringifyMembers kvs).length + 1
  | JsonFields.nil => by simp [pfuelFields, stringifyMembers]
  | JsonFields.cons k v kvs => by
    have h1 := pfuel_le_stringify v
    have h2 := pfuelFields_le_stringifyMembers kvs
    have hm : max (pfuel v) (pfuelFields kvs) ≤
        (stringifyKey k).length + (stringify v).length + (stringifyMembers kvs).length + 1 :=
      Nat.max_le.mpr ⟨by omega, by omega⟩
    simp only [pfuelFields, stringifyMembers, List.length_cons, List.length_append]
    omega
end

theorem pfuelItems_ofList_le_tailText : ∀ (vs : List Json) (v0 : Json),
    pfuelItems (JsonList.ofList (v0 :: vs)) ≤ (tailText (v0 :: vs)).length := by
  intro vs
  induction vs with
  | nil =>
    intro v0
    have h1 := pfuel_le_stringify v0
    have hm : max (pfuel v0) (pfuelItems (JsonList.ofList [])) ≤
        (stringify v0).length + 1 := by
      simp only [JsonList.ofList, pfuelItems]
      exact Nat.max_le.mpr ⟨by omega, by omega⟩
    simp only [JsonList.ofList, pfuelItems, tailText, List.length_append,
      List.length_cons]
    simp only [JsonList.ofList, pfuelItems] at hm
    simp
    omega
  | cons v1 vs ih =>
    intro v0
    have h1 := pfuel_le_stringify v0
    have h2 := ih v1
    have hm : max (pfuel v0) (pfuelItems (JsonList.ofList (v1 :: vs))) ≤
        (stringify v0).length + (tailText (v1 :: vs)).length + 1 :=
      Nat.max_le.mpr ⟨by omega, by omega⟩
    simp only [JsonList.ofList, pfuelItems, tailText, List.length_append,
      List.length_cons]
    simp only [JsonList.ofList, pfuelItems] at hm
    simp
    omega

theorem toList_ofList : ∀ l : List Json, (JsonList.ofList l).toList = l := by
  intro l
  induction l with
  | nil => rfl
  | cons v vs ih => simp [JsonList.ofList, JsonList.toList, ih]

theorem itemsShape_tailText : ∀ (vs : List Json) (v0 : Json) (w : List Char),
    (∀ c ∈ w, isWsChar c = true) →
    ItemsShape (JsonList.ofList (v0 :: vs)) (w ++ tailText (v0 :: vs)) := by
  intro vs
  induction vs with
  | nil =>
    intro v0 w hw
    have h : w ++ tailText [v0] = w ++ stringify v0 ++ ['\n'] ++ [']'] := by
      simp [tailText]
    rw [h]
    exact ItemsShape.last v0 w ['\n'] hw (by intro c hc; simp at hc; subst hc; rfl)
  | cons v1 vs ih =>
    intro v0 w hw
    have h : w ++ tailText (v0 :: v1 :: vs) =
        w ++ stringify v0 ++ [] ++ [','] ++ (['\n'] ++ tailText (v1 :: vs)) := by
      simp [tailText]
    rw [h]
    exact ItemsShape.cons v0 _ w [] _ hw (by simp)
      (ih v1 ['\n'] (by intro c hc; simp at hc; subst hc; rfl))

theorem fileOf_foldl : ∀ (vs : List Json) (file : List Char),
    vs.foldl appendEventFile file = file ++ segsText vs := by
  intro vs
  induction vs with
  | nil => intro file; simp [segsText]
  | cons v vs ih =>
    intro file
    simp only [List.foldl_cons, ih, appendEventFile, segsText, List.map_cons,
      List.flatten_cons]
    simp [List.append_assoc]

theorem strip_segs : ∀ (vs : List Json) (v0 : Json),
    (∀ v ∈ v0 :: vs, containsPat (stringify v) = false) →
    stripDangling (segsText (v0 :: vs) ++ [']']) = tailText (v0 :: vs) := by
  intro vs
  induction vs with
  | nil =>
    intro v0 h
    have hseg : segsText [v0] ++ [']'] = stringify v0 ++ [',', '\n', ']'] := by
      simp [segsText]
    rw [hseg, stripDangling_append (stringify v0) [',', '\n', ']']
      (h v0 (by simp)) (stringify_getLast v0)]
    rw [show stripDangling [',', '\n', ']'] = ['\n', ']'] from rfl]
    simp [tailText]
  | cons v1 vs ih =>
    intro v0 h
    have hseg : segsText (v0 :: v1 :: vs) ++ [']'] =
        stringify v0 ++ (',' :: '\n' :: (segsText (v1 :: vs) ++ [']'])) := by
      simp [segsText]
    rw [hseg, stripDangling_append (stringify v0) _
      (h v0 (by simp)) (stringify_getLast v0)]
    obtain ⟨c, t, hct, _, hrws, hbr⟩ := stringify_head v1
    have hsegs_cons : ∃ Y, segsText (v1 :: vs) ++ [']'] = c :: Y := by
      refine ⟨t ++ ([',', '\n'] ++ segsText vs) ++ [']'], ?_⟩
      simp [segsText, hct]
    obtain ⟨Y, hY⟩ := hsegs_cons
    have hwtb : wsThenBracket ('\n' :: (segsText (v1 :: vs) ++ [']'])) = false := by
      rw [wsThenBracket.eq_def]
      rw [show skipRegexWs ('\n' :: (segsText (v1 :: vs) ++ [']'])) =
        skipRegexWs (segsText (v1 :: vs) ++ [']']) from by
          rw [show ('\n' :: (segsText (v1 :: vs) ++ [']'])) =
            ['\n'] ++ (segsText (v1 :: vs) ++ [']']) from rfl]
          exact skipRegexWs_append_ws ['\n'] _
            (by intro x hx; simp at hx; subst hx; rfl)]
      rw [hY, skipRegexWs_cons_not_ws c Y hrws]
      simpa using hbr
    have hstrip1 : stripDangling (',' :: '\n' :: (segsText (v1 :: vs) ++ [']'])) =
        ',' :: '\n' :: stripDangling (segsText (v1 :: vs) ++ [']']) := by
      rw [stripDangling.eq_def]
      simp only [if_pos rfl, hwtb, Bool.false_eq_true, if_false]
      rw [stripDangling.eq_def]
      simp only [if_neg (show ¬ ('\n' = ',') from by decide)]
      simp
    rw [hstrip1, ih v1 (fun v hv => h v (by simp at hv ⊢; tauto))]
    simp [tailText]

theorem stripDangling_fileOf (vs : List Json)
    (h : ∀ v ∈ vs, containsPat (stringify v) = false) :
    stripDangling (fileOf vs ++ [']']) = '[' :: '\n' :: tailText vs := by
  cases vs with
  | nil => rfl
  | cons v0 vs' =>
    have hfile : fileOf (v0 :: vs') = '[' :: '\n' :: segsText (v0 :: vs') := by
      rw [show fileOf (v0 :: vs') = (v0 :: vs').foldl appendEventFile arrayFileInit
        from rfl]
      rw [fileOf_foldl]
      rfl
    rw [hfile]
    rw [show ('[' :: '\n' :: segsText (v0 :: vs')) ++ [']'] =
      '[' :: '\n' :: (segsText (v0 :: vs') ++ [']']) from rfl]
    have hstep : stripDangling ('[' :: '\n' :: (segsText (v0 :: vs') ++ [']'])) =
        '[' :: '\n' :: stripDangling (segsText (v0 :: vs') ++ [']']) := by
      rw [stripDangling.eq_def]
      simp only [if_neg (show ¬ ('[' = ',') from by decide)]
      rw [stripDangling.eq_def]
      simp only [if_neg (show ¬ ('\n' = ',') from by decide)]
    rw [hstep, strip_segs vs' v0 h]

/-- C8 (amended): for every finite sequence of JSON-serializable events whose
serializations do not contain a comma followed by optional `\s`-whitespace
(the JavaScript regular-expression class, including U+00A0 and the other
Unicode spaces) and a closing bracket, initializing the store with `[` and a
newline, appending each event as its serialization followed by `,\n`, then
reading by appending `]`, stripping the dangling comma and parsing as a JSON
array yields exactly the original ordered sequence of event values. -/
theorem c8_roundtrip_no_pattern (vs : List Json)
    (h : ∀ v ∈ vs, containsPat (stringify v) = false) :
    retrieveModel (fileOf vs) = some vs := by
  cases vs with
  | nil => rfl
  | cons v0 vs' =>
    unfold retrieveModel
    rw [stripDangling_fileOf (v0 :: vs') h]
    unfold parseJson
    simp only [List.length_cons]
    rw [parseVal_lbrack_tok]
    obtain ⟨c, t, hct, hws, _, hbr⟩ := stringify_head v0
    obtain ⟨X, hX⟩ : ∃ X, tailText (v0 :: vs') = stringify v0 ++ X := by
      cases vs' with
      | nil => exact ⟨['\n', ']'], rfl⟩
      | cons v1 vs2 => exact ⟨[',', '\n'] ++ tailText (v1 :: vs2), by simp [tailText]⟩
    have hcons : tailText (v0 :: vs') = c :: (t ++ X) := by
      rw [hX, hct]; simp
    have hskip : skipWs ('\n' :: tailText (v0 :: vs')) = tailText (v0 :: vs') := by
      rw [show ('\n' :: tailText (v0 :: vs')) = ['\n'] ++ tailText (v0 :: vs') from rfl]
      rw [skipWs_append_ws ['\n'] _ (by intro x hx; simp at hx; subst hx; rfl)]
      rw [hcons]
      exact skipWs_cons_not_ws c _ hws
    simp only [hskip]
    rw [hcons]
    simp only [if_neg hbr]
    rw [← hcons]
    have hshape := itemsShape_tailText vs' v0 [] (by simp)
    rw [List.nil_append] at hshape
    have hfuel : pfuelItems (JsonList.ofList (v0 :: vs')) ≤
        (tailText (v0 :: vs')).length + 1 + 1 := by
      have := pfuelItems_ofList_le_tailText vs' v0
      omega
    have hparse := (parse_stringify_main ((tailText (v0 :: vs')).length + 1 + 1)).2.1
      (JsonList.ofList (v0 :: vs')) (tailText (v0 :: vs')) [] hshape hfuel
    rw [List.append_nil] at hparse
    rw [hparse]
    simp [skipWs, toList_ofList]

/-- C8 (counterexample): the claim quantifies over every sequence of
JSON-serializable events.  The single event `{"a":",]"}` is serializable, but
its serialization contains a comma directly followed by a closing bracket
inside the string literal, so the dangling-comma regular expression removes
that comma instead of the final one; the repaired text still ends with a
dangling comma and `JSON.parse` rejects it — reading back yields an error,
not the original sequence. -/
theorem c8_counterexample :
    ¬ (retrieveModel (fileOf
        [Json.obj (JsonFields.cons ['a'] (Json.str [',', ']']) JsonFields.nil)]) =
      some [Json.obj (JsonFields.cons ['a'] (Json.str [',', ']']) JsonFields.nil)]) := by
  intro hEq
  rw [show retrieveModel (fileOf
      [Json.obj (JsonFields.cons ['a'] (Json.str [',', ']']) JsonFields.nil)]) = none
    from rfl] at hEq
  exact Option.noConfusion hEq

/-- C8 witness: the amended round trip evaluated on the two-event sequence
`{"type":"USER"}`, `null`. -/
theorem c8_roundtrip_no_pattern_witness :
    retrieveModel (fileOf
      [Json.obj (JsonFields.cons ['t', 'y', 'p', 'e']
        (Json.str ['U', 'S', 'E', 'R']) JsonFields.nil), Json.null]) =
      some [Json.obj (JsonFields.cons ['t', 'y', 'p', 'e']
        (Json.str ['U', 'S', 'E', 'R']) JsonFields.nil), Json.null] :=
  c8_roundtrip_no_pattern _ (by decide)
